import Mathlib

/-!
Verification of the mara-pipelines execution core against its natural-language
specification.  The definitions below are shallow embeddings of the Python
source files `mara_pipelines/pipelines.py`, `mara_pipelines/execution.py`,
`mara_pipelines/logging/run_log.py`, `data_integration/logging/logger.py`,
`data_integration/logging/node_cost.py` and
`data_integration/incremental_processing/processed_files.py`.

Python sets of nodes are modelled as duplicate-free lists (`addMem` inserts
only when absent, `List.erase` removes); Python dicts keyed by nodes are
modelled as association lists; node objects are identified by natural-number
ids, and the object heap (the `upstreams` / `downstreams` / `parent` /
configuration attributes of all nodes) is modelled as a `Graph` record of
functions from ids.  Walks along `parent` back references (`Node.parents` in
`pipelines.py`) are given an explicit fuel argument: in Python they terminate
because the parent relation is a finite tree; every theorem below holds for
every fuel value.
-/

namespace MaraPipelines

/-! # Definitions -/

/-- Inserting into a Python `set`: a no-op when the element is present. -/
def addMem (l : List Nat) (x : Nat) : List Nat :=
  if x ∈ l then l else l ++ [x]

/-! ## The object heap of a pipeline DAG (`mara_pipelines/pipelines.py`)

Node objects are natural-number ids.  The mutable object attributes of
`Node` / `Task` / `ParallelTask` / `Pipeline` are collected into one record of
total functions; the operations below mutate it functionally.  `children n`
models `pipeline.nodes.values()` (for pipeline nodes), `maxParallelTasks`,
`ignoreErrors`, `forceRunAllChildren`, `initialNode`, `finalNode` model the
attributes of the same names (`None` is `Option.none`). -/

inductive NodeKind where
  | task
  | parallelTask
  | pipeline
deriving DecidableEq

structure Graph where
  kind : Nat → NodeKind
  parent : Nat → Option Nat
  upstreams : Nat → List Nat
  downstreams : Nat → List Nat
  children : Nat → List Nat
  maxParallelTasks : Nat → Option Nat
  ignoreErrors : Nat → Bool
  forceRunAllChildren : Nat → Bool
  initialNode : Nat → Option Nat
  finalNode : Nat → Option Nat

/-- `Pipeline.remove_dependency` (`pipelines.py` lines 263-265):
`upstream.downstreams.discard(downstream); downstream.upstreams.discard(upstream)`. -/
def removeDependency (g : Graph) (u d : Nat) : Graph :=
  let g1 := { g with downstreams := Function.update g.downstreams u ((g.downstreams u).erase d) }
  { g1 with upstreams := Function.update g1.upstreams d ((g1.upstreams d).erase u) }

/-- `Pipeline.add_dependency` (`pipelines.py` lines 243-261), called on pipeline
`self`: add the edge, then strip the auto-wired sentinel edges
`(upstream, self.final_node)` and `(self.initial_node, downstream)`.
(The string-to-node lookup of the Python function does not apply: ids are
passed directly.) -/
def addDependency (g : Graph) (self u d : Nat) : Graph :=
  let g1 := { g with downstreams := Function.update g.downstreams u (addMem (g.downstreams u) d) }
  let g2 := { g1 with upstreams := Function.update g1.upstreams d (addMem (g1.upstreams d) u) }
  -- the edge insertions do not touch `self.final_node` / `self.initial_node`,
  -- so the two sentinel tests below read them from `g` directly
  let g3 :=
    match g.finalNode self with
    | some f => if f ≠ d then removeDependency g2 u f else g2
    | none => g2
  match g.initialNode self with
  | some i => if i ≠ u then removeDependency g3 i d else g3
  | none => g3

/-- The first loop of `Pipeline.remove` (`pipelines.py` lines 209-211):

    for upstream in node.upstreams:
        for downstream in node.downstreams:
            self.add_dependency(upstream, downstream)

(`add_dependency` does not mutate `node.upstreams` / `node.downstreams`
unless `node` is a sentinel, so iterating snapshots is faithful.) -/
def reconnectAll (g : Graph) (self n : Nat) : Graph :=
  (g.upstreams n).foldl (fun acc u =>
    (g.downstreams n).foldl (fun acc2 d => addDependency acc2 self u d) acc) g

/-- The second loop of `Pipeline.remove` (lines 213-214):
`for upstream in copy.copy(node.upstreams): self.remove_dependency(upstream, node)`. -/
def detachUps (h : Graph) (l : List Nat) (n : Nat) : Graph :=
  l.foldl (fun acc u => removeDependency acc u n) h

/-- The third loop of `Pipeline.remove` (lines 216-217):
`for downstream in copy.copy(node.downstreams): self.remove_dependency(node, downstream)`. -/
def detachDowns (h : Graph) (n : Nat) (l : List Nat) : Graph :=
  l.foldl (fun acc d => removeDependency acc n d) h

/-- `Pipeline.remove` (`pipelines.py` lines 200-225), called on pipeline
`self` with node `n`: reconnect every upstream of `n` to every downstream of
`n` via `add_dependency`, detach `n` from all its edges, clear
`initial_node` / `final_node` when they are `n`, and delete `n` from
`self.nodes`. -/
def removeNode (g : Graph) (self n : Nat) : Graph :=
  let g1 := reconnectAll g self n
  let g2 := detachUps g1 (g1.upstreams n) n
  let g3 := detachDowns g2 n (g2.downstreams n)
  let g4 :=
    if g3.initialNode self = some n then
      { g3 with initialNode := Function.update g3.initialNode self none }
    else g3
  let g5 :=
    if g4.finalNode self = some n then
      { g4 with finalNode := Function.update g4.finalNode self none }
    else g4
  { g5 with children := Function.update g5.children self ((g5.children self).erase n) }

/-- An edge of the DAG at one level: `b ∈ a.downstreams`. -/
def hasEdge (g : Graph) (a b : Nat) : Prop := b ∈ g.downstreams a

/-- Reachability along `downstreams` edges. -/
def GReach (g : Graph) (a b : Nat) : Prop := Relation.ReflTransGen (hasEdge g) a b

/-- `Node.parents` (`pipelines.py` lines 26-31): the chain of parents from the
root down to the node itself.  `fuel` bounds the walk along the `parent`
back references (in Python the walk terminates because parents form a
finite tree). -/
def parentsChain (g : Graph) : Nat → Nat → List Nat
  | 0, n => [n]
  | fuel + 1, n =>
    match g.parent n with
    | some p => parentsChain g fuel p ++ [n]
    | none => [n]

/-- The failure bookkeeping of `run_pipeline.run` when a finished task is
collected (`execution.py` lines 277-280):

    succeeded = not (task_process.status_queue.get() == False
                     or task_process.exitcode != 0)
    if not succeeded and not task_process.task.parent.ignore_errors:
        for parent in task_process.task.parents()[:-1]:
            failed_pipelines.add(parent)

The combined `succeeded` flag is the argument; only the ignore_errors flag
of the task's direct parent is consulted.  (A task dequeued by the scheduler
always has a parent pipeline; on a parentless node Python would raise
`AttributeError` instead of reaching the loop.) -/
def failedAfterTaskFinish (g : Graph) (fuel : Nat) (t : Nat) (succeeded : Bool)
    (failed : List Nat) : List Nat :=
  if succeeded then failed
  else
    match g.parent t with
    | none => failed
    | some p =>
      if g.ignoreErrors p then failed
      else ((parentsChain g fuel t).dropLast).foldl addMem failed

/-! ## Scheduler state and loop (`run_pipeline.run`, `execution.py` lines 57-295)

The scheduler state inside the executor child process.  `runningPipelines`
is the dict `running_pipelines` reduced to its per-pipeline
`running_child_count` (the stored `start_time` only feeds event payloads);
`runningTasks` is the key set of `running_task_processes`;
`processed`, `failedPipelines` and `nodeQueue` model `processed_nodes`,
`failed_pipelines` and `node_queue`. -/

structure SchedState where
  graph : Graph
  nodeQueue : List Nat
  processed : List Nat
  runningPipelines : List (Nat × Nat)
  failedPipelines : List Nat
  runningTasks : List Nat

/-- `running_pipelines[p][1]` lookup. -/
def lookupCount (rp : List (Nat × Nat)) (p : Nat) : Option Nat :=
  (rp.find? (fun pc => pc.1 == p)).map (fun pc => pc.2)

/-- `running_pipelines[p] = [t, c]` (dict assignment overwrites). -/
def setCount (rp : List (Nat × Nat)) (p c : Nat) : List (Nat × Nat) :=
  if rp.any (fun pc => pc.1 == p) then
    rp.map (fun pc => if pc.1 == p then (pc.1, c) else pc)
  else rp ++ [(p, c)]

/-- `running_pipelines[p][1] += delta` under `if p in running_pipelines`
(a no-op when `p` has no entry). -/
def bumpCount (rp : List (Nat × Nat)) (p : Nat) (f : Nat → Nat) : List (Nat × Nat) :=
  rp.map (fun pc => if pc.1 == p then (pc.1, f pc.2) else pc)

/-- `del running_pipelines[p]`. -/
def delCount (rp : List (Nat × Nat)) (p : Nat) : List (Nat × Nat) :=
  rp.filter (fun pc => pc.1 != p)

/-- First `dequeue` condition (`execution.py` line 133):
`not node.upstreams or len(node.upstreams & processed_nodes) == len(node.upstreams)`
(for sets, the cardinality test is exactly `upstreams ⊆ processed`). -/
def upstreamsReady (g : Graph) (processed : List Nat) (n : Nat) : Bool :=
  (g.upstreams n).isEmpty || (g.upstreams n).all (fun u => decide (u ∈ processed))

/-- Second `dequeue` condition (`execution.py` lines 134-137).  A node's
parent, when present, is always a `Pipeline` instance, which is what
`not isinstance(node.parent, pipelines.Pipeline)` tests; `0` and `None`
are both falsy for `not node.parent.max_number_of_parallel_tasks`. -/
def parallelOk (g : Graph) (rp : List (Nat × Nat)) (n : Nat) : Bool :=
  match g.parent n with
  | none => true
  | some p =>
    match g.maxParallelTasks p with
    | none => true
    | some k =>
      if k = 0 then true
      else
        match lookupCount rp p with
        | none => true
        | some c => decide (c < k)

/-- The `while parent:` walk inside `dequeue` (`execution.py` lines 140-153):
blocked when some ancestor pipeline is failed and does not have
`force_run_all_children`. -/
def ancestorBlocked (g : Graph) (failed : List Nat) : Nat → Nat → Bool
  | 0, _ => false
  | fuel + 1, n =>
    match g.parent n with
    | none => false
    | some p =>
      if decide (p ∈ failed) && !g.forceRunAllChildren p then true
      else ancestorBlocked g failed fuel p

/-- `dequeue` (`execution.py` lines 126-155).  Scans `node_queue` in order for
the first node that is upstream-ready and within its parent's parallelism
cap; a candidate whose ancestry is blocked is removed from the queue and
added to `processed_nodes` instead of being returned (and the Python
`for node in node_queue:` loop, iterating a list it mutates with
`node_queue.remove(node)`, then skips the element that slid into the
removed slot).  Returns the dequeued node (if any), the remaining queue,
and the updated `processed_nodes`. -/
def dequeueScan (g : Graph) (fuel : Nat) (rp : List (Nat × Nat)) (failed : List Nat) :
    List Nat → List Nat → Option Nat × List Nat × List Nat
  | [], processed => (none, [], processed)
  | n :: rest, processed =>
    if upstreamsReady g processed n && parallelOk g rp n then
      if ancestorBlocked g failed fuel n then
        match rest with
        | [] => (none, [], addMem processed n)
        | m :: rest2 =>
          match dequeueScan g fuel rp failed rest2 (addMem processed n) with
          | (r1, rq, rproc) => (r1, m :: rq, rproc)
      else
        (some n, rest, processed)
    else
      match dequeueScan g fuel rp failed rest processed with
      | (r1, rq, rproc) => (r1, n :: rq, rproc)

/-- Insertion into a list sorted by descending cost. -/
def insertDescBy (cost : Nat → ℚ) (x : Nat) : List Nat → List Nat
  | [] => [x]
  | y :: ys => if cost y ≤ cost x then x :: y :: ys else y :: insertDescBy cost x ys

/-- `node_queue.sort(key=lambda node: node.cost, reverse=True)` after appending
(`queue` in `execution.py` lines 70-74).  The per-node costs computed by
`node_cost.compute_cost` and memoised on the node objects are abstracted
into the `cost` ranking function; the invariants below hold for every
ranking. -/
def sortDescBy (cost : Nat → ℚ) : List Nat → List Nat
  | [] => []
  | x :: xs => insertDescBy cost x (sortDescBy cost xs)

/-- Pipeline dispatch wiring, upstream side (`execution.py` lines 197-201):

    for upstream in next_node.upstreams:
        for pipeline_node in next_node.nodes.values():
            if not pipeline_node.upstreams:
                next_node.add_dependency(upstream, pipeline_node)

The `if not pipeline_node.upstreams` test reads the current state, so only
the first upstream is wired to each initially-bare child. -/
def wirePipelineUpstreams (g : Graph) (pn : Nat) : Graph :=
  (g.upstreams pn).foldl (fun acc u =>
    (g.children pn).foldl (fun acc2 c =>
      if acc2.upstreams c = [] then addDependency acc2 pn u c else acc2) acc) g

/-- Pipeline dispatch wiring, downstream side (`execution.py` lines 203-207). -/
def wirePipelineDownstreams (g : Graph) (pn : Nat) : Graph :=
  (g.downstreams pn).foldl (fun acc d =>
    (g.children pn).foldl (fun acc2 c =>
      if acc2.downstreams c = [] then addDependency acc2 pn c d else acc2) acc) g

/-- Per-iteration oracle input to the scheduler loop: which task processes
are no longer alive (with the `succeeded` flag combining
`status_queue.get() == False` and `exitcode != 0`, `execution.py` line 277),
and the outcome of `ParallelTask.launch()`.  `launch()` runs arbitrary user
code and `Pipeline.replace` substitutes the fresh sub-pipeline for the
parallel task node, so the resulting object heap is supplied by the oracle
as `launchGraph` together with the id `launchSub` of the new sub-pipeline;
`launch()` only creates fresh nodes, which the `GoodInput` side condition
below captures for the attributes the invariants depend on. -/
structure StepInput where
  finishedTasks : List (Nat × Bool)
  launchOk : Bool
  launchGraph : Graph
  launchSub : Nat

/-- Dispatch of a dequeued node (`execution.py` lines 196-264), by node kind:
a `Pipeline` is wired to its surroundings, its children are queued and it
gets a `running_pipelines` entry with child count 0; a `ParallelTask` either
launches (heap swapped for the oracle's `launchGraph`, sub-pipeline queued)
or fails (parent added to `failed_pipelines`, node marked processed); a
`Task` increments its parent's running-child count (when the parent has an
entry) and joins `running_task_processes`. -/
def dispatchNode (cost : Nat → ℚ) (input : StepInput) (st : SchedState) (n : Nat) :
    SchedState :=
  match st.graph.kind n with
  | NodeKind.pipeline =>
    let g2 := wirePipelineDownstreams (wirePipelineUpstreams st.graph n) n
    { st with
      graph := g2
      nodeQueue := sortDescBy cost (st.nodeQueue ++ g2.children n)
      runningPipelines := setCount st.runningPipelines n 0 }
  | NodeKind.parallelTask =>
    if input.launchOk then
      { st with
        graph := input.launchGraph
        nodeQueue := sortDescBy cost (st.nodeQueue ++ [input.launchSub]) }
    else
      { st with
        failedPipelines :=
          match st.graph.parent n with
          | some p => addMem st.failedPipelines p
          | none => st.failedPipelines
        processed := addMem st.processed n }
  | NodeKind.task =>
    { st with
      runningPipelines :=
        match st.graph.parent n with
        | some p => bumpCount st.runningPipelines p (fun c => c + 1)
        | none => st.runningPipelines
      runningTasks := addMem st.runningTasks n }

/-- Collection of finished task processes (`execution.py` lines 266-289): each
dead process is removed from `running_task_processes`, its parent's
running-child count is decremented (when the parent has an entry), the task
joins `processed_nodes`, and on failure `failed_pipelines` grows per
`failedAfterTaskFinish`. -/
def collectFinished (fuel : Nat) (st : SchedState) (finished : List (Nat × Bool)) :
    SchedState :=
  finished.foldl (fun s tb =>
    if tb.1 ∈ s.runningTasks then
      { s with
        runningTasks := s.runningTasks.erase tb.1
        runningPipelines :=
          match s.graph.parent tb.1 with
          | some p => bumpCount s.runningPipelines p (fun c => c - 1)
          | none => s.runningPipelines
        processed := addMem s.processed tb.1
        failedPipelines := failedAfterTaskFinish s.graph fuel tb.1 tb.2 s.failedPipelines }
    else s) st

/-- `track_finished_pipelines` (`execution.py` lines 157-170): every running
pipeline whose children are all processed is removed from
`running_pipelines` and added to `processed_nodes` (iterating a snapshot,
`dict(running_pipelines).items()`). -/
def trackFinishedPipelines (st : SchedState) : SchedState :=
  st.runningPipelines.foldl (fun s pc =>
    if (s.graph.children pc.1).all (fun c => decide (c ∈ s.processed)) then
      { s with
        runningPipelines := delCount s.runningPipelines pc.1
        processed := addMem s.processed pc.1 }
    else s) st

/-- One iteration of the scheduler main loop (`execution.py` lines 189-295):
when fewer than `config.max_number_of_parallel_tasks()` (here `m`) task
processes are running, dequeue and dispatch at most one node; then collect
finished task processes; then finalize finished pipelines. -/
def schedStep (m fuel : Nat) (cost : Nat → ℚ) (input : StepInput) (st : SchedState) :
    SchedState :=
  trackFinishedPipelines (collectFinished fuel
    (if st.runningTasks.length < m then
      match dequeueScan st.graph fuel st.runningPipelines st.failedPipelines
          st.nodeQueue st.processed with
      | (some n, q2, proc2) =>
        dispatchNode cost input { st with nodeQueue := q2, processed := proc2 } n
      | (none, q2, proc2) => { st with nodeQueue := q2, processed := proc2 }
    else st) input.finishedTasks)

/-- The scheduler state right after set-up (`execution.py` lines 99-106):
empty bookkeeping, the starting nodes in the queue. -/
def initState (g : Graph) (queue : List Nat) : SchedState :=
  { graph := g, nodeQueue := queue, processed := [], runningPipelines := [],
    failedPipelines := [], runningTasks := [] }

/-- The oracle respects that `launch()` creates only fresh node objects:
swapping the heap does not change `max_number_of_parallel_tasks` of any
pipeline currently in `running_pipelines`. -/
def GoodInput (st : SchedState) (i : StepInput) : Prop :=
  ∀ pc ∈ st.runningPipelines,
    i.launchGraph.maxParallelTasks pc.1 = st.graph.maxParallelTasks pc.1

/-- States reachable by iterating the scheduler loop under well-behaved
oracle inputs. -/
inductive Reaches (m fuel : Nat) (cost : Nat → ℚ) : SchedState → SchedState → Prop where
  | refl (s : SchedState) : Reaches m fuel cost s s
  | step {s t : SchedState} (i : StepInput) (h : Reaches m fuel cost s t)
      (hg : GoodInput t i) : Reaches m fuel cost s (schedStep m fuel cost i t)

/-- The per-pipeline cap invariant: every `running_pipelines` entry of a
pipeline with a truthy configured limit `k` has running-child count ≤ `k`. -/
def PerPipeOk (st : SchedState) : Prop :=
  ∀ pc ∈ st.runningPipelines,
    ∀ k, st.graph.maxParallelTasks pc.1 = some k → k ≠ 0 → pc.2 ≤ k

/-- A concrete heap for the parallelism-limit counterexample: pipeline 0 has
`max_number_of_parallel_tasks = 0` configured and two task children 1, 2. -/
def exG3 : Graph :=
  { kind := fun n => if n = 0 then NodeKind.pipeline else NodeKind.task
    parent := fun n => if n = 1 ∨ n = 2 then some 0 else none
    upstreams := fun _ => []
    downstreams := fun _ => []
    children := fun n => if n = 0 then [1, 2] else []
    maxParallelTasks := fun n => if n = 0 then some 0 else none
    ignoreErrors := fun _ => false
    forceRunAllChildren := fun _ => false
    initialNode := fun _ => none
    finalNode := fun _ => none }

/-- An uneventful oracle input for runs of `exG3`: no task process dies, and
`launch()` is never consulted (`exG3` has no parallel task). -/
def exI3 : StepInput :=
  { finishedTasks := [], launchOk := true, launchGraph := exG3, launchSub := 0 }

/-- A concrete heap for the failure-propagation claims: pipeline 0 (the root,
with `ignore_errors=True`) contains pipeline 1 (`ignore_errors=False`),
which contains task 2. -/
def exG1 : Graph :=
  { kind := fun n => if n = 2 then NodeKind.task else NodeKind.pipeline
    parent := fun n => if n = 1 then some 0 else if n = 2 then some 1 else none
    upstreams := fun _ => []
    downstreams := fun _ => []
    children := fun n => if n = 0 then [1] else if n = 1 then [2] else []
    maxParallelTasks := fun _ => none
    ignoreErrors := fun n => n == 0
    forceRunAllChildren := fun _ => false
    initialNode := fun _ => none
    finalNode := fun _ => none }

/-- A concrete heap for the remove-reconnection counterexample: pipeline 10
with `final_node = 3` contains tasks 1, 2, 3, 4 with edges 1→2, 2→3, 2→4,
4→3 (the edge 2→3 to the final node was added explicitly via
`add_dependency(2, final)` after 2→4, so the final node sits *before* 4 in
`downstreams(2)`, one of the possible iteration orders of the Python set). -/
def exG5 : Graph :=
  { kind := fun n => if n = 10 then NodeKind.pipeline else NodeKind.task
    parent := fun n => if 1 ≤ n ∧ n ≤ 4 then some 10 else none
    upstreams := fun n =>
      if n = 2 then [1] else if n = 3 then [2, 4] else if n = 4 then [2] else []
    downstreams := fun n =>
      if n = 1 then [2] else if n = 2 then [3, 4] else if n = 4 then [3] else []
    children := fun n => if n = 10 then [1, 2, 3, 4] else []
    maxParallelTasks := fun _ => none
    ignoreErrors := fun _ => false
    forceRunAllChildren := fun _ => false
    initialNode := fun _ => none
    finalNode := fun n => if n = 10 then some 3 else none }

/-- A concrete heap for the remove-reconnection witness: pipeline 10 without
sentinels containing the chain 1 → 2 → 3. -/
def exG5b : Graph :=
  { kind := fun n => if n = 10 then NodeKind.pipeline else NodeKind.task
    parent := fun n => if 1 ≤ n ∧ n ≤ 3 then some 10 else none
    upstreams := fun n => if n = 2 then [1] else if n = 3 then [2] else []
    downstreams := fun n => if n = 1 then [2] else if n = 2 then [3] else []
    children := fun n => if n = 10 then [1, 2, 3] else []
    maxParallelTasks := fun _ => none
    ignoreErrors := fun _ => false
    forceRunAllChildren := fun _ => false
    initialNode := fun _ => none
    finalNode := fun _ => none }

/-- A concrete heap for the dequeue-readiness witness: task 1 has task 0 as
its only upstream. -/
def exG2 : Graph :=
  { kind := fun _ => NodeKind.task
    parent := fun _ => none
    upstreams := fun n => if n = 1 then [0] else []
    downstreams := fun n => if n = 0 then [1] else []
    children := fun _ => []
    maxParallelTasks := fun _ => none
    ignoreErrors := fun _ => false
    forceRunAllChildren := fun _ => false
    initialNode := fun _ => none
    finalNode := fun _ => none }

/-! ## Crash-safe run closure (`mara_pipelines/logging/run_log.py` lines 70-105)

Rows of `data_integration_run` and `data_integration_node_run` (schema at
lines 13-37); timestamps are naturals, nullable columns are `Option`. -/

structure RunRow where
  run_id : Nat
  node_path : List String
  pid : Nat
  start_time : Nat
  end_time : Option Nat
  succeeded : Option Bool
deriving DecidableEq

structure NodeRunRow where
  node_run_id : Nat
  run_id : Nat
  node_path : List String
  start_time : Nat
  end_time : Option Nat
  succeeded : Option Bool
  is_pipeline : Bool
deriving DecidableEq

/-- The `_close_run` UPDATE of `close_open_run_after_error` applied to one
`Run` row: `SET end_time = now(), succeeded = FALSE WHERE run_id = %s AND
end_time IS NULL`. -/
def closeRunRow (rid now : Nat) (row : RunRow) : RunRow :=
  if row.run_id = rid ∧ row.end_time = none then
    { row with end_time := some now, succeeded := some false }
  else row

/-- The `_close_node_run` UPDATE applied to one `NodeRun` row. -/
def closeNodeRunRow (rid now : Nat) (row : NodeRunRow) : NodeRunRow :=
  if row.run_id = rid ∧ row.end_time = none then
    { row with end_time := some now, succeeded := some false }
  else row

/-- `close_open_run_after_error(run_id)` (`run_log.py` lines 70-105): a no-op
when `run_id` is `None` (line 72); otherwise the two UPDATE statements,
applied to every row of the two tables.  (The `'mara' not in databases()`
guard and the per-statement `except: pass` concern an unreachable or failing
database, outside this model of the successful path.) -/
def close_open_run_after_error (rid : Option Nat) (now : Nat)
    (runs : List RunRow) (nodeRuns : List NodeRunRow) :
    List RunRow × List NodeRunRow :=
  match rid with
  | none => (runs, nodeRuns)
  | some r => (runs.map (closeRunRow r now), nodeRuns.map (closeNodeRunRow r now))

/-! ## Password masking (`data_integration/logging/logger.py` lines 13-39)

Messages are lists of characters (Python `str` methods over unicode code
points). -/

/-- Python `s.replace(p, r)` for a nonempty pattern `p`: replace
non-overlapping occurrences, scanning left to right.  The fuel argument
(one unit per consumed character) makes the recursion structural;
`pyReplace` supplies `s.length`, which is always sufficient because each
step consumes at least one character. -/
def replaceGo (p r : List Char) : Nat → List Char → List Char
  | 0, s => s
  | fuel + 1, s =>
    if p ≠ [] ∧ p <+: s then r ++ replaceGo p r fuel (s.drop p.length)
    else
      match s with
      | [] => []
      | c :: s2 => c :: replaceGo p r fuel s2

/-- Python `s.replace(p, r)`.  The empty pattern inserts `r` at every gap
(`"abc".replace("", "X") == "XaXbXcX"`). -/
def pyReplace (p r s : List Char) : List Char :=
  if p = [] then r ++ (s.map (fun c => c :: r)).flatten
  else replaceGo p r s.length s

/-- Python `s.rstrip()`. -/
def pyRstrip (s : List Char) : List Char :=
  (s.reverse.dropWhile (fun c => c.isWhitespace)).reverse

/-- The replacement text `'***'` of `logger.log`. -/
def stars : List Char := ['*', '*', '*']

/-- The masking loop of `logger.log` (`logger.py` lines 29-32):
`for mask in masks: message = message.replace(mask, '***')` (the `if masks:`
guard is the identity fold over an empty list). -/
def maskMessage (masks : List (List Char)) (message : List Char) : List Char :=
  masks.foldl (fun m mask => pyReplace mask stars m) message

/-- `logger.log` (`logger.py` lines 13-39) up to the point where the `Output`
event is enqueued: `message.rstrip()`, then masking, then
`if message: _event_queue.put(events.Output(_node_path, message, ...))`.
Returns the message carried by the emitted event, or `none` when nothing is
emitted. -/
def logEmittedMessage (masks : List (List Char)) (message : List Char) :
    Option (List Char) :=
  if maskMessage masks (pyRstrip message) = [] then none
  else some (maskMessage masks (pyRstrip message))

/-! ## Task runner (`TaskProcess.run`, `mara_pipelines/execution.py` lines 413-438)

`effective_max_retries` models the Python expression
`self.task.max_retries or config.default_task_max_retries()` (line 422):
`or` falls through both when `max_retries` is `None` and when it is `0`,
because `0` is falsy in Python.

`taskRunLoop` models the retry loop (lines 420-433).  The result of the
`i`-th call of `task.run()` (0-indexed) is supplied by the oracle
`run : Nat → Bool`; the loop variable `attempt` equals the number of failed
invocations so far, which is also the index of the next invocation.  The
function returns the final `succeeded` flag, the total number of `task.run()`
invocations, and the list of `time.sleep` delays (in seconds) in order. -/

def effective_max_retries (taskMaxRetries : Option Nat) (dflt : Nat) : Nat :=
  match taskMaxRetries with
  | none => dflt
  | some k => if k = 0 then dflt else k

def taskRunLoop (run : Nat → Bool) (maxRetries attempt : Nat) :
    Bool × Nat × List Nat :=
  if run attempt then
    (true, 1, [])
  else if _h : attempt < maxRetries then
    -- `attempt += 1; delay = pow(2, attempt + 2); time.sleep(delay); continue`
    ((taskRunLoop run maxRetries (attempt + 1)).1,
     (taskRunLoop run maxRetries (attempt + 1)).2.1 + 1,
     2 ^ (attempt + 1 + 2) :: (taskRunLoop run maxRetries (attempt + 1)).2.2)
  else
    (false, 1, [])
termination_by maxRetries - attempt
decreasing_by omega

/-- The whole of `TaskProcess.run` for a task with the given `max_retries`
attribute under the given configured default. -/
def taskProcessRun (run : Nat → Bool) (taskMaxRetries : Option Nat)
    (dflt : Nat) : Bool × Nat × List Nat :=
  taskRunLoop run (effective_max_retries taskMaxRetries dflt) 0

/-! ## Node cost (`data_integration/logging/node_cost.py` lines 45-62) -/

/-- Python `max(list or [0])`: the maximum of a list, `0` when it is empty. -/
def pyMax (l : List ℚ) : ℚ :=
  match l with
  | [] => 0
  | x :: xs => xs.foldl max x

/-- `node_durations_and_run_times.get(path, [0, 0])[1] or 0`: a node with no
recorded history (`none`) contributes `0`; `or 0` maps a recorded `0` to
itself. -/
def runTimeOr0 (runTime : Nat → Option ℚ) (n : Nat) : ℚ :=
  match runTime n with
  | none => 0
  | some v => v

/-- The downstream structure `compute_cost` recurses over.  Nodes are
numbered so that every edge increases the number (`wf`), which witnesses the
acyclicity that the recursion of the source relies on; `runTime n` stands for
`node_durations_and_run_times.get(path(n), [0, 0])[1]`. -/
structure CostGraph where
  size : Nat
  downstreams : Nat → List Nat
  runTime : Nat → Option ℚ
  wf : ∀ n d, d ∈ downstreams n → n < d ∧ d < size

/-- `compute_cost` (`node_cost.py` lines 45-62) on a graph whose `cost`
attributes are all initially unset, so every `node.cost is None` test
succeeds and the memoisation only caches the value computed here:
`node.cost = max([compute_cost(d, …) for d in node.downstreams] or [0])
+ (node_durations_and_run_times.get(path, [0, 0])[1] or 0)`. -/
def compute_cost (g : CostGraph) (n : Nat) : ℚ :=
  pyMax ((g.downstreams n).attach.map (fun d => compute_cost g d.1)) +
    runTimeOr0 g.runTime n
termination_by g.size - n
decreasing_by
  have h := g.wf n d.1 d.2
  omega

/-- A two-node chain with run time 3 everywhere, used to instantiate the C8
theorem. -/
def exG8 : CostGraph where
  size := 2
  downstreams := fun n => if n = 0 then [1] else []
  runTime := fun _ => some 3
  wf := by
    intro n d hd
    dsimp only at hd
    by_cases h0 : n = 0
    · subst h0
      simp at hd
      omega
    · rw [if_neg h0] at hd
      cases hd

/-! ## Processed files
(`data_integration/incremental_processing/processed_files.py`) -/

/-- A row of `data_integration_processed_file` (schema in
`migrate_processed_files`, primary key `(node_path, file_name)`). -/
structure ProcessedFileRow where
  node_path : List String
  file_name : String
  last_modified_timestamp : Int
deriving DecidableEq

/-- The row transformation of the upsert: `ON CONFLICT (node_path, file_name)
DO UPDATE SET last_modified_timestamp = EXCLUDED.last_modified_timestamp`. -/
def upsertRow (p : List String) (f : String) (t : Int)
    (row : ProcessedFileRow) : ProcessedFileRow :=
  if row.node_path = p ∧ row.file_name = f then
    { row with last_modified_timestamp := t }
  else row

/-- `track_processed_file` (`processed_files.py` lines 24-42): `INSERT …
ON CONFLICT (node_path, file_name) DO UPDATE …` — an existing row with the
key is updated, otherwise the new row is inserted. -/
def track_processed_file (tbl : List ProcessedFileRow) (p : List String)
    (f : String) (t : Int) : List ProcessedFileRow :=
  if tbl.any (fun row => decide (row.node_path = p ∧ row.file_name = f)) then
    tbl.map (upsertRow p f t)
  else tbl ++ [⟨p, f, t⟩]

/-- `already_processed_files` (`processed_files.py` lines 45-59): `SELECT
file_name, last_modified_timestamp FROM data_integration_processed_file
WHERE node_path = %s`, as the association list behind the returned dictionary
`{row[0]: row[1] for row in …}`. -/
def already_processed_files (tbl : List ProcessedFileRow) (p : List String) :
    List (String × Int) :=
  (tbl.filter (fun row => decide (row.node_path = p))).map
    (fun row => (row.file_name, row.last_modified_timestamp))

/-- The `(node_path, file_name)` primary key constraint of the table. -/
def UniqueKeys (tbl : List ProcessedFileRow) : Prop :=
  tbl.Pairwise (fun a b => a.node_path ≠ b.node_path ∨ a.file_name ≠ b.file_name)

/-! # Theorems -/

theorem mem_addMem (l : List Nat) (x a : Nat) :
    a ∈ addMem l x ↔ a ∈ l ∨ a = x := by
  unfold addMem
  by_cases h : x ∈ l
  · simp only [if_pos h]
    constructor
    · exact fun ha => Or.inl ha
    · rintro (ha | rfl)
      · exact ha
      · exact h
  · simp [if_neg h]

theorem addMem_subset (l : List Nat) (x : Nat) : ∀ a ∈ l, a ∈ addMem l x := by
  intro a ha
  exact (mem_addMem l x a).mpr (Or.inl ha)

theorem taskRunLoop_spec (run : Nat → Bool) (m : Nat) :
    ∀ a, a ≤ m →
      1 ≤ (taskRunLoop run m a).2.1 ∧
      (taskRunLoop run m a).2.1 ≤ m - a + 1 ∧
      ((taskRunLoop run m a).1 = true ↔ ∃ i, a ≤ i ∧ i ≤ m ∧ run i = true) ∧
      ((∀ i, a ≤ i → i ≤ m → run i = false) →
        (taskRunLoop run m a).1 = false ∧ (taskRunLoop run m a).2.1 = m - a + 1) ∧
      (taskRunLoop run m a).2.2 =
        (List.range ((taskRunLoop run m a).2.1 - 1)).map (fun k => 2 ^ (a + k + 3)) := by
  suffices h : ∀ n a, m - a ≤ n → a ≤ m →
      1 ≤ (taskRunLoop run m a).2.1 ∧
      (taskRunLoop run m a).2.1 ≤ m - a + 1 ∧
      ((taskRunLoop run m a).1 = true ↔ ∃ i, a ≤ i ∧ i ≤ m ∧ run i = true) ∧
      ((∀ i, a ≤ i → i ≤ m → run i = false) →
        (taskRunLoop run m a).1 = false ∧ (taskRunLoop run m a).2.1 = m - a + 1) ∧
      (taskRunLoop run m a).2.2 =
        (List.range ((taskRunLoop run m a).2.1 - 1)).map (fun k => 2 ^ (a + k + 3)) by
    intro a ha
    exact h (m - a) a (le_refl _) ha
  intro n
  induction n with
  | zero =>
    intro a hn ha
    rw [taskRunLoop]
    by_cases hr : run a
    · rw [if_pos hr]
      refine ⟨le_refl 1, by show 1 ≤ m - a + 1; omega,
        ⟨fun _ => ⟨a, le_refl a, ha, hr⟩, fun _ => rfl⟩, ?_, by rfl⟩
      intro hall
      exact absurd hr (by simp [hall a (le_refl a) ha])
    · rw [if_neg (by simp [hr]), dif_neg (by omega : ¬ a < m)]
      refine ⟨le_refl 1, by show 1 ≤ m - a + 1; omega, ?_, fun _ => ⟨rfl, by show 1 = m - a + 1; omega⟩, by rfl⟩
      constructor
      · intro hcon; exact absurd hcon (by simp)
      · rintro ⟨i, hi1, hi2, hi3⟩
        have hia : i = a := by omega
        rw [hia] at hi3
        exact absurd hi3 (by simp [hr])
  | succ n ihn =>
    intro a hn ha
    rw [taskRunLoop]
    by_cases hr : run a
    · rw [if_pos hr]
      refine ⟨le_refl 1, by show 1 ≤ m - a + 1; omega,
        ⟨fun _ => ⟨a, le_refl a, ha, hr⟩, fun _ => rfl⟩, ?_, by rfl⟩
      intro hall
      exact absurd hr (by simp [hall a (le_refl a) ha])
    · rw [if_neg (by simp [hr])]
      by_cases hlt : a < m
      · rw [dif_pos hlt]
        obtain ⟨h1, h2, h3, h4, h5⟩ := ihn (a + 1) (by omega) (by omega)
        refine ⟨?_, ?_, ?_, ?_, ?_⟩
        · show 1 ≤ (taskRunLoop run m (a + 1)).2.1 + 1
          omega
        · show (taskRunLoop run m (a + 1)).2.1 + 1 ≤ m - a + 1
          omega
        · show (taskRunLoop run m (a + 1)).1 = true ↔ _
          rw [h3]
          constructor
          · rintro ⟨i, hi1, hi2, hi3⟩; exact ⟨i, by omega, hi2, hi3⟩
          · rintro ⟨i, hi1, hi2, hi3⟩
            refine ⟨i, ?_, hi2, hi3⟩
            rcases Nat.eq_or_lt_of_le hi1 with heq | hgt
            · exact absurd hi3 (by simp [← heq, hr])
            · omega
        · intro hall
          have hrest := h4 (fun i hia him => hall i (Nat.le_of_succ_le hia) him)
          refine ⟨hrest.1, ?_⟩
          show (taskRunLoop run m (a + 1)).2.1 + 1 = m - a + 1
          have h9 := hrest.2
          clear hrest hall h3 h4 h5 ihn
          omega
        · show 2 ^ (a + 1 + 2) :: (taskRunLoop run m (a + 1)).2.2 =
            (List.range ((taskRunLoop run m (a + 1)).2.1 + 1 - 1)).map (fun k => 2 ^ (a + k + 3))
          simp only [Nat.add_sub_cancel]
          obtain ⟨c, hc⟩ : ∃ c, (taskRunLoop run m (a + 1)).2.1 = c + 1 :=
            ⟨(taskRunLoop run m (a + 1)).2.1 - 1, by omega⟩
          rw [hc] at h5 ⊢
          simp only [Nat.add_sub_cancel] at h5
          rw [List.range_succ_eq_map, List.map_cons, List.map_map]
          rw [h5]
          rw [show a + 1 + 2 = a + 0 + 3 from by omega]
          refine congrArg (fun l => 2 ^ (a + 0 + 3) :: l) ?_
          apply List.map_congr_left
          intro k _
          simp only [Function.comp_apply, Nat.succ_eq_add_one]
          rw [show a + 1 + k + 3 = a + (k + 1) + 3 from by omega]
      · rw [dif_neg hlt]
        refine ⟨le_refl 1, by show 1 ≤ m - a + 1; omega, ?_, fun _ => ⟨rfl, by show 1 = m - a + 1; omega⟩, by rfl⟩
        constructor
        · intro hcon; exact absurd hcon (by simp)
        · rintro ⟨i, hi1, hi2, hi3⟩
          have hia : i = a := by omega
          rw [hia] at hi3
          exact absurd hi3 (by simp [hr])

/-- C4: for a task whose effective retry limit (`task.max_retries or
config.default_task_max_retries()`) is `m`, `TaskProcess.run` invokes
`task.run()` at most `m + 1` times; it reports success exactly when some
invocation among the first `m + 1` returns true (and it stops at the first
such invocation, so with `c` invocations the first `c - 1` fail); after
`m + 1` consecutive failures it reports failure having invoked `task.run()`
exactly `m + 1` times; and the sleep before retry `k` (the `k`-th re-run,
`k = 1, 2, ...`) is exactly `2 ^ (k + 2)` seconds — the delay list is
`[2^3, 2^4, ...]` with one entry per performed retry. -/
theorem claim_C4_retry_ladder (run : Nat → Bool) (taskMaxRetries : Option Nat) (dflt : Nat) :
    (taskProcessRun run taskMaxRetries dflt).2.1 ≤ effective_max_retries taskMaxRetries dflt + 1 ∧
    ((taskProcessRun run taskMaxRetries dflt).1 = true ↔
      ∃ i, i ≤ effective_max_retries taskMaxRetries dflt ∧ run i = true) ∧
    ((∀ i, i ≤ effective_max_retries taskMaxRetries dflt → run i = false) →
      (taskProcessRun run taskMaxRetries dflt).1 = false ∧
      (taskProcessRun run taskMaxRetries dflt).2.1 = effective_max_retries taskMaxRetries dflt + 1) ∧
    (taskProcessRun run taskMaxRetries dflt).2.2 =
      (List.range ((taskProcessRun run taskMaxRetries dflt).2.1 - 1)).map
        (fun j => 2 ^ ((j + 1) + 2)) := by
  obtain ⟨h1, h2, h3, h4, h5⟩ :=
    taskRunLoop_spec run (effective_max_retries taskMaxRetries dflt) 0 (Nat.zero_le _)
  rw [Nat.sub_zero] at h2
  simp only [Nat.sub_zero] at h4
  refine ⟨by unfold taskProcessRun; exact h2, ?_, ?_, ?_⟩
  · unfold taskProcessRun
    rw [h3]
    constructor
    · rintro ⟨i, _, hi2, hi3⟩; exact ⟨i, hi2, hi3⟩
    · rintro ⟨i, hi2, hi3⟩; exact ⟨i, Nat.zero_le i, hi2, hi3⟩
  · intro hall
    have hrest := h4 (fun i _ him => hall i him)
    unfold taskProcessRun
    exact ⟨hrest.1, hrest.2⟩
  · unfold taskProcessRun
    rw [h5]
    apply List.map_congr_left
    intro k _
    rw [show 0 + k + 3 = k + 1 + 2 from by omega]

/-- Witness for C4, instantiating the retry ladder at the scenario named in
the claim: a task with `max_retries = 2` whose command fails twice and then
succeeds performs exactly three `run()` invocations, reports success, and
sleeps 8 and then 16 seconds between them. -/
theorem witness_C4_retry_ladder :
    taskProcessRun (fun i => decide (2 ≤ i)) (some 2) 7 = (true, 3, [8, 16]) ∧
    ((taskProcessRun (fun i => decide (2 ≤ i)) (some 2) 7).1 = true ↔
      ∃ i, i ≤ effective_max_retries (some 2) 7 ∧ decide (2 ≤ i) = true) := by
  constructor
  · show taskRunLoop (fun i => decide (2 ≤ i)) 2 0 = (true, 3, [8, 16])
    rw [taskRunLoop]; norm_num
    rw [taskRunLoop]; norm_num
    rw [taskRunLoop]; norm_num
  · exact (claim_C4_retry_ladder (fun i => decide (2 ≤ i)) (some 2) 7).2.1

/-- C10: a task whose `max_retries` attribute is explicitly `0` gets
`config.default_task_max_retries()` as its effective retry limit, because
`task.max_retries or config.default_task_max_retries()` treats `0` like
`None` (both are falsy); such a task is indistinguishable from one with no
`max_retries` set, and when the configured default is positive it is retried
(a second `task.run()` invocation happens) after a first failure. -/
theorem claim_C10_zero_max_retries (run : Nat → Bool) (dflt : Nat) :
    effective_max_retries (some 0) dflt = dflt ∧
    taskProcessRun run (some 0) dflt = taskProcessRun run none dflt ∧
    (run 0 = false → 0 < dflt →
      2 ≤ (taskProcessRun run (some 0) dflt).2.1) := by
  refine ⟨rfl, rfl, ?_⟩
  intro hf hd
  show 2 ≤ (taskRunLoop run dflt 0).2.1
  rw [taskRunLoop, if_neg (by simp [hf]), dif_pos hd]
  show 2 ≤ (taskRunLoop run dflt 1).2.1 + 1
  have h1 := (taskRunLoop_spec run dflt 1 hd).1
  omega

/-- Witness for C10: with `max_retries = 0`, a default of 1 and a task whose
command always fails, `task.run()` is invoked twice (one retry happened). -/
theorem witness_C10_zero_max_retries :
    2 ≤ (taskProcessRun (fun _ => false) (some 0) 1).2.1 :=
  (claim_C10_zero_max_retries (fun _ => false) 1).2.2 rfl (by decide)

theorem mem_foldl_addMem (l acc : List Nat) (a : Nat) :
    a ∈ l.foldl addMem acc ↔ a ∈ acc ∨ a ∈ l := by
  induction l generalizing acc with
  | nil => simp
  | cons x xs ih =>
    simp only [List.foldl_cons, ih, mem_addMem, List.mem_cons]
    tauto

/-- C1 counterexample: in `exG1`, task 2 fails; its direct parent (pipeline 1)
does not ignore errors, so the loop `for parent in task.parents()[:-1]`
adds *both* ancestors to `failed_pipelines` — including the root pipeline 0,
which has `ignore_errors=True`.  The claim asserts that no ancestor at or
above an ignoring ancestor is added, so it is false on this input. -/
theorem counterexample_C1_failure_propagation :
    exG1.parent 2 = some 1 ∧ exG1.parent 1 = some 0 ∧ exG1.parent 0 = none ∧
    exG1.ignoreErrors 0 = true ∧ exG1.ignoreErrors 1 = false ∧
    0 ∈ failedAfterTaskFinish exG1 3 2 false [] ∧
    1 ∈ failedAfterTaskFinish exG1 3 2 false [] := by decide

/-- C1 (amended): when a task finishes unsuccessfully, the scheduler consults
only the `ignore_errors` flag of the task's *direct* parent: if that flag is
set, nothing is added to `failed_pipelines`; otherwise every proper ancestor
of the task (`task.parents()` minus the task itself) is added, regardless of
the `ignore_errors` flags of higher ancestors — the walk does not stop at
the nearest ignoring ancestor. -/
theorem claim_C1_failure_propagation (g : Graph) (fuel t : Nat) (failed : List Nat)
    (p : Nat) (hp : g.parent t = some p) :
    ∀ a, a ∈ failedAfterTaskFinish g fuel t false failed ↔
      (a ∈ failed ∨
        (g.ignoreErrors p = false ∧ a ∈ (parentsChain g fuel t).dropLast)) := by
  intro a
  simp only [failedAfterTaskFinish, Bool.false_eq_true, if_false, hp]
  cases hip : g.ignoreErrors p with
  | true => simp
  | false => simp [mem_foldl_addMem]

/-- Witness for C1: the amended characterization instantiated on `exG1`. -/
theorem witness_C1_failure_propagation :
    0 ∈ failedAfterTaskFinish exG1 3 2 false [] ↔
      (0 ∈ ([] : List Nat) ∨
        (exG1.ignoreErrors 1 = false ∧ 0 ∈ (parentsChain exG1 3 2).dropLast)) :=
  claim_C1_failure_propagation exG1 3 2 [] 1 rfl 0

/-- C2: whenever `dequeue()` returns a node for dispatch, every upstream of
that node is already in `processed_nodes` (as returned alongside the node,
i.e. as the scheduler state stands at dispatch time); since the scheduler
only dispatches nodes returned by `dequeue()`, a node with a non-empty
upstream set is dispatched only after all of its upstreams have been
processed, at every iteration of the loop. -/
theorem claim_C2_dequeue_readiness (g : Graph) (fuel : Nat) (rp : List (Nat × Nat))
    (failed : List Nat) (queue processed : List Nat) (n : Nat) (q2 proc2 : List Nat)
    (h : dequeueScan g fuel rp failed queue processed = (some n, q2, proc2)) :
    ∀ u, u ∈ g.upstreams n → u ∈ proc2 := by
  revert processed n q2 proc2 h
  suffices aux : ∀ (L : Nat) (queue processed : List Nat) (n : Nat) (q2 proc2 : List Nat),
      queue.length ≤ L →
      dequeueScan g fuel rp failed queue processed = (some n, q2, proc2) →
      ∀ u, u ∈ g.upstreams n → u ∈ proc2 by
    intro processed n q2 proc2 h
    exact aux queue.length queue processed n q2 proc2 (le_refl _) h
  intro L
  induction L with
  | zero =>
    intro queue processed n q2 proc2 hlen h
    have hq : queue = [] := List.length_eq_zero.mp (Nat.le_zero.mp hlen)
    subst hq
    simp [dequeueScan] at h
  | succ L ihL =>
    intro queue processed n q2 proc2 hlen h
    rcases queue with _ | ⟨x, rest⟩
    · simp [dequeueScan] at h
    · rw [dequeueScan.eq_def] at h
      dsimp only at h
      by_cases hcond : (upstreamsReady g processed x && parallelOk g rp x) = true
      · rw [if_pos hcond] at h
        by_cases hblk : ancestorBlocked g failed fuel x = true
        · rw [if_pos hblk] at h
          rcases rest with _ | ⟨m2, rest2⟩
          · simp at h
          · dsimp only at h
            rcases hrec : dequeueScan g fuel rp failed rest2 (addMem processed x) with
              ⟨r1, rq, rproc⟩
            rw [hrec] at h
            simp only [Prod.mk.injEq] at h
            obtain ⟨h1, _, h3⟩ := h
            subst h1; subst h3
            have hlen2 : rest2.length ≤ L := by
              simp only [List.length_cons] at hlen; omega
            exact ihL rest2 (addMem processed x) n rq rproc hlen2 hrec
        · rw [if_neg hblk] at h
          simp only [Prod.mk.injEq] at h
          obtain ⟨h1, _, h3⟩ := h
          have hx : x = n := Option.some.inj h1
          subst hx; subst h3
          intro u hu
          have hready : upstreamsReady g processed x = true :=
            (Bool.and_eq_true _ _ |>.mp hcond).1
          unfold upstreamsReady at hready
          rcases (Bool.or_eq_true _ _).mp hready with hemp | hall
          · rw [List.isEmpty_iff] at hemp
            rw [hemp] at hu
            exact absurd hu (List.not_mem_nil u)
          · rw [List.all_eq_true] at hall
            exact of_decide_eq_true (hall u hu)
      · rw [if_neg hcond] at h
        rcases hrec : dequeueScan g fuel rp failed rest processed with ⟨r1, rq, rproc⟩
        rw [hrec] at h
        simp only [Prod.mk.injEq] at h
        obtain ⟨h1, _, h3⟩ := h
        subst h1; subst h3
        have hlen2 : rest.length ≤ L := by
          simp only [List.length_cons] at hlen; omega
        exact ihL rest processed n rq rproc hlen2 hrec

/-- Witness for C2: on `exG2` with queue `[1]` and `processed = [0]`,
`dequeue` returns node 1 and its only upstream 0 is in the returned
processed set. -/
theorem witness_C2_dequeue_readiness : (0 : Nat) ∈ ([0] : List Nat) :=
  claim_C2_dequeue_readiness exG2 1 [] [] [1] [0] 1 [] [0] rfl 0 (by decide)

theorem foldl_preserve {α β : Type} (P : α → Prop) (f : α → β → α) :
    ∀ (l : List β) (s : α), (∀ a b, P a → P (f a b)) → P s → P (l.foldl f s) := by
  intro l
  induction l with
  | nil => intro s _ hs; exact hs
  | cons x xs ih => intro s hstep hs; exact ih (f s x) hstep (hstep s x hs)

theorem addMem_length_le (l : List Nat) (x : Nat) :
    (addMem l x).length ≤ l.length + 1 := by
  unfold addMem
  by_cases h : x ∈ l
  · rw [if_pos h]; omega
  · rw [if_neg h]; simp

theorem removeDependency_maxParallelTasks (g : Graph) (u d : Nat) :
    (removeDependency g u d).maxParallelTasks = g.maxParallelTasks := rfl

theorem addDependency_maxParallelTasks (g : Graph) (s u d : Nat) :
    (addDependency g s u d).maxParallelTasks = g.maxParallelTasks := by
  unfold addDependency
  rcases g.finalNode s with _ | f <;> rcases g.initialNode s with _ | i <;>
    dsimp only <;> first
    | rfl
    | (split_ifs <;> rfl)

theorem wirePipelineUpstreams_maxParallelTasks (g : Graph) (pn : Nat) :
    (wirePipelineUpstreams g pn).maxParallelTasks = g.maxParallelTasks := by
  unfold wirePipelineUpstreams
  refine foldl_preserve (fun h : Graph => h.maxParallelTasks = g.maxParallelTasks) _ _ _ ?_ rfl
  intro a u ha
  refine foldl_preserve (fun h : Graph => h.maxParallelTasks = g.maxParallelTasks) _ _ _ ?_ ha
  intro a2 c ha2
  by_cases hc : a2.upstreams c = []
  · rw [if_pos hc, addDependency_maxParallelTasks]; exact ha2
  · rw [if_neg hc]; exact ha2

theorem wirePipelineDownstreams_maxParallelTasks (g : Graph) (pn : Nat) :
    (wirePipelineDownstreams g pn).maxParallelTasks = g.maxParallelTasks := by
  unfold wirePipelineDownstreams
  refine foldl_preserve (fun h : Graph => h.maxParallelTasks = g.maxParallelTasks) _ _ _ ?_ rfl
  intro a d ha
  refine foldl_preserve (fun h : Graph => h.maxParallelTasks = g.maxParallelTasks) _ _ _ ?_ ha
  intro a2 c ha2
  by_cases hc : a2.downstreams c = []
  · rw [if_pos hc, addDependency_maxParallelTasks]; exact ha2
  · rw [if_neg hc]; exact ha2

theorem mem_setCount (rp : List (Nat × Nat)) (p c : Nat) (pc : Nat × Nat)
    (h : pc ∈ setCount rp p c) : pc ∈ rp ∨ pc.2 = c := by
  unfold setCount at h
  by_cases ha : rp.any (fun pc0 => pc0.1 == p) = true
  · rw [if_pos ha] at h
    obtain ⟨pc0, hpc0, heq⟩ := List.mem_map.mp h
    by_cases hm : pc0.1 = p
    · rw [if_pos (by simp [hm])] at heq
      right; rw [← heq]
    · rw [if_neg (by simp [hm])] at heq
      left; rw [← heq]; exact hpc0
  · rw [if_neg ha] at h
    rcases List.mem_append.mp h with h1 | h2
    · exact Or.inl h1
    · right; rw [List.mem_singleton.mp h2]

theorem setCount_keys_nodup (rp : List (Nat × Nat)) (p c : Nat)
    (h : (rp.map Prod.fst).Nodup) : ((setCount rp p c).map Prod.fst).Nodup := by
  unfold setCount
  by_cases ha : rp.any (fun pc0 => pc0.1 == p) = true
  · rw [if_pos ha]
    have hkeys : (rp.map fun pc0 => if pc0.1 == p then (pc0.1, c) else pc0).map
        Prod.fst = rp.map Prod.fst := by
      rw [List.map_map]
      apply List.map_congr_left
      intro pc0 _
      simp only [Function.comp_apply]
      by_cases hm : pc0.1 = p
      · rw [if_pos (by simp [hm])]
      · rw [if_neg (by simp [hm])]
    rw [hkeys]
    exact h
  · rw [if_neg ha]
    rw [List.map_append]
    simp only [List.map_cons, List.map_nil]
    rw [List.nodup_append]
    refine ⟨h, List.nodup_singleton p, ?_⟩
    intro a hak hap
    rw [List.mem_singleton.mp hap] at hak
    obtain ⟨pc0, hpc0, hfst⟩ := List.mem_map.mp hak
    exact absurd (List.any_eq_true.mpr ⟨pc0, hpc0, by simp [hfst]⟩) ha

theorem mem_bumpCount (rp : List (Nat × Nat)) (p : Nat) (f : Nat → Nat) (pc : Nat × Nat)
    (h : pc ∈ bumpCount rp p f) :
    (pc ∈ rp ∧ pc.1 ≠ p) ∨ ∃ c0, (p, c0) ∈ rp ∧ pc = (p, f c0) := by
  unfold bumpCount at h
  obtain ⟨pc0, hpc0, heq⟩ := List.mem_map.mp h
  by_cases hm : pc0.1 = p
  · rw [if_pos (by simp [hm])] at heq
    right
    refine ⟨pc0.2, ?_, ?_⟩
    · rw [← hm]; exact hpc0
    · rw [← heq, hm]
  · rw [if_neg (by simp [hm])] at heq
    left
    constructor
    · rw [← heq]; exact hpc0
    · rw [← heq]; exact hm

theorem bumpCount_keys (rp : List (Nat × Nat)) (p : Nat) (f : Nat → Nat) :
    (bumpCount rp p f).map Prod.fst = rp.map Prod.fst := by
  unfold bumpCount
  rw [List.map_map]
  apply List.map_congr_left
  intro pc0 _
  simp only [Function.comp_apply]
  by_cases hm : pc0.1 = p
  · rw [if_pos (by simp [hm])]
  · rw [if_neg (by simp [hm])]

theorem delCount_subset (rp : List (Nat × Nat)) (p : Nat) (pc : Nat × Nat)
    (h : pc ∈ delCount rp p) : pc ∈ rp :=
  (List.mem_filter.mp h).1

theorem delCount_keys_nodup (rp : List (Nat × Nat)) (p : Nat)
    (h : (rp.map Prod.fst).Nodup) : ((delCount rp p).map Prod.fst).Nodup :=
  ((List.filter_sublist rp).map Prod.fst).nodup h

theorem lookupCount_eq_of_mem_nodup (rp : List (Nat × Nat))
    (hnd : (rp.map Prod.fst).Nodup) (pc : Nat × Nat) (h : pc ∈ rp) :
    lookupCount rp pc.1 = some pc.2 := by
  induction rp with
  | nil => exact absurd h (List.not_mem_nil pc)
  | cons x rest ih =>
    rcases List.mem_cons.mp h with heq | hmem
    · subst heq
      unfold lookupCount
      rw [List.find?_cons_of_pos _ (by simp)]
      rfl
    · rw [List.map_cons, List.nodup_cons] at hnd
      have hx1 : ¬ x.1 = pc.1 := by
        intro hcon
        apply hnd.1
        rw [hcon]
        exact List.mem_map_of_mem Prod.fst hmem
      unfold lookupCount
      rw [List.find?_cons_of_neg _ (by simp [hx1])]
      exact ih hnd.2 hmem

theorem dequeueScan_parallelOk (g : Graph) (fuel : Nat) (rp : List (Nat × Nat))
    (failed : List Nat) (queue processed : List Nat) (n : Nat) (q2 proc2 : List Nat)
    (h : dequeueScan g fuel rp failed queue processed = (some n, q2, proc2)) :
    parallelOk g rp n = true := by
  revert processed n q2 proc2 h
  suffices aux : ∀ (L : Nat) (queue processed : List Nat) (n : Nat) (q2 proc2 : List Nat),
      queue.length ≤ L →
      dequeueScan g fuel rp failed queue processed = (some n, q2, proc2) →
      parallelOk g rp n = true by
    intro processed n q2 proc2 h
    exact aux queue.length queue processed n q2 proc2 (le_refl _) h
  intro L
  induction L with
  | zero =>
    intro queue processed n q2 proc2 hlen h
    have hq : queue = [] := List.length_eq_zero.mp (Nat.le_zero.mp hlen)
    subst hq
    simp [dequeueScan] at h
  | succ L ihL =>
    intro queue processed n q2 proc2 hlen h
    rcases queue with _ | ⟨x, rest⟩
    · simp [dequeueScan] at h
    · rw [dequeueScan.eq_def] at h
      dsimp only at h
      by_cases hcond : (upstreamsReady g processed x && parallelOk g rp x) = true
      · rw [if_pos hcond] at h
        by_cases hblk : ancestorBlocked g failed fuel x = true
        · rw [if_pos hblk] at h
          rcases rest with _ | ⟨m2, rest2⟩
          · simp at h
          · dsimp only at h
            rcases hrec : dequeueScan g fuel rp failed rest2 (addMem processed x) with
              ⟨r1, rq, rproc⟩
            rw [hrec] at h
            simp only [Prod.mk.injEq] at h
            obtain ⟨h1, _, h3⟩ := h
            subst h1; subst h3
            have hlen2 : rest2.length ≤ L := by
              simp only [List.length_cons] at hlen; omega
            exact ihL rest2 (addMem processed x) n rq rproc hlen2 hrec
        · rw [if_neg hblk] at h
          simp only [Prod.mk.injEq] at h
          have hx : x = n := Option.some.inj h.1
          subst hx
          exact ((Bool.and_eq_true _ _).mp hcond).2
      · rw [if_neg hcond] at h
        rcases hrec : dequeueScan g fuel rp failed rest processed with ⟨r1, rq, rproc⟩
        rw [hrec] at h
        simp only [Prod.mk.injEq] at h
        obtain ⟨h1, _, h3⟩ := h
        subst h1; subst h3
        have hlen2 : rest.length ≤ L := by
          simp only [List.length_cons] at hlen; omega
        exact ihL rest processed n rq rproc hlen2 hrec

theorem dispatchNode_inv (m : Nat) (cost : Nat → ℚ) (input : StepInput) (st : SchedState)
    (n : Nat)
    (hlen : st.runningTasks.length < m)
    (hpo : parallelOk st.graph st.runningPipelines n = true)
    (hgi : ∀ pc ∈ st.runningPipelines,
      input.launchGraph.maxParallelTasks pc.1 = st.graph.maxParallelTasks pc.1)
    (hpp : PerPipeOk st)
    (hnd : (st.runningPipelines.map Prod.fst).Nodup) :
    (dispatchNode cost input st n).runningTasks.length ≤ m ∧
    PerPipeOk (dispatchNode cost input st n) ∧
    ((dispatchNode cost input st n).runningPipelines.map Prod.fst).Nodup := by
  unfold dispatchNode
  cases hk : st.graph.kind n with
  | pipeline =>
    refine ⟨by show st.runningTasks.length ≤ m; omega, ?_,
      setCount_keys_nodup _ _ _ hnd⟩
    unfold PerPipeOk
    intro pc hpc k hkmax hk0
    have hkmax2 : st.graph.maxParallelTasks pc.1 = some k := by
      rw [← wirePipelineUpstreams_maxParallelTasks st.graph n,
        ← wirePipelineDownstreams_maxParallelTasks (wirePipelineUpstreams st.graph n) n]
      exact hkmax
    rcases mem_setCount _ _ _ _ hpc with hold | h0
    · exact hpp pc hold k hkmax2 hk0
    · rw [h0]; exact Nat.zero_le k
  | parallelTask =>
    by_cases hlo : input.launchOk = true
    · rw [if_pos hlo]
      refine ⟨by show st.runningTasks.length ≤ m; omega, ?_, hnd⟩
      unfold PerPipeOk
      intro pc hpc k hkmax hk0
      have hkmax2 : st.graph.maxParallelTasks pc.1 = some k := by
        rw [← hgi pc hpc]; exact hkmax
      exact hpp pc hpc k hkmax2 hk0
    · rw [if_neg hlo]
      exact ⟨by show st.runningTasks.length ≤ m; omega,
        fun pc hpc k hkmax hk0 => hpp pc hpc k hkmax hk0, hnd⟩
  | task =>
    cases hpar : st.graph.parent n with
    | none =>
      refine ⟨?_, fun pc hpc k hkmax hk0 => hpp pc hpc k hkmax hk0, hnd⟩
      show (addMem st.runningTasks n).length ≤ m
      have := addMem_length_le st.runningTasks n
      omega
    | some p =>
      refine ⟨?_, ?_, ?_⟩
      · show (addMem st.runningTasks n).length ≤ m
        have := addMem_length_le st.runningTasks n
        omega
      · unfold PerPipeOk
        intro pc hpc k hkmax hk0
        rcases mem_bumpCount _ _ _ _ hpc with ⟨hold, _⟩ | ⟨c0, hc0mem, hceq⟩
        · exact hpp pc hold k hkmax hk0
        · subst hceq
          have hkmax2 : st.graph.maxParallelTasks p = some k := hkmax
          have hk02 : k ≠ 0 := hk0
          simp only [parallelOk, hpar, hkmax2] at hpo
          rw [if_neg hk02] at hpo
          have hlook := lookupCount_eq_of_mem_nodup st.runningPipelines hnd (p, c0) hc0mem
          simp only [hlook] at hpo
          show c0 + 1 ≤ k
          have hlt : c0 < k := of_decide_eq_true hpo
          omega
      · show ((bumpCount st.runningPipelines p (fun c => c + 1)).map Prod.fst).Nodup
        rw [bumpCount_keys]
        exact hnd

theorem collectFinished_inv (m fuel : Nat) (finished : List (Nat × Bool)) (st : SchedState)
    (h : st.runningTasks.length ≤ m ∧ PerPipeOk st ∧
      (st.runningPipelines.map Prod.fst).Nodup) :
    (collectFinished fuel st finished).runningTasks.length ≤ m ∧
    PerPipeOk (collectFinished fuel st finished) ∧
    ((collectFinished fuel st finished).runningPipelines.map Prod.fst).Nodup := by
  unfold collectFinished
  refine foldl_preserve (fun s : SchedState => s.runningTasks.length ≤ m ∧ PerPipeOk s ∧
    (s.runningPipelines.map Prod.fst).Nodup) _ _ _ ?_ h
  intro s tb hs
  by_cases hmem : tb.1 ∈ s.runningTasks
  · rw [if_pos hmem]
    have herase : (s.runningTasks.erase tb.1).length ≤ m := by
      have := (s.runningTasks.erase_sublist tb.1).length_le
      have := hs.1
      omega
    cases hpar : s.graph.parent tb.1 with
    | none =>
      exact ⟨herase, fun pc hpc k hkmax hk0 => hs.2.1 pc hpc k hkmax hk0, hs.2.2⟩
    | some p =>
      refine ⟨herase, ?_, ?_⟩
      · unfold PerPipeOk
        dsimp only
        intro pc hpc k hkmax hk0
        rcases mem_bumpCount _ _ _ _ hpc with ⟨hold, _⟩ | ⟨c0, hc0mem, hceq⟩
        · exact hs.2.1 pc hold k hkmax hk0
        · subst hceq
          have hkmax2 : s.graph.maxParallelTasks p = some k := hkmax
          have hc0 : c0 ≤ k := hs.2.1 (p, c0) hc0mem k hkmax2 hk0
          show c0 - 1 ≤ k
          omega
      · show ((bumpCount s.runningPipelines p (fun c => c - 1)).map Prod.fst).Nodup
        rw [bumpCount_keys]
        exact hs.2.2
  · rw [if_neg hmem]
    exact hs

theorem trackFinishedPipelines_inv (m : Nat) (st : SchedState)
    (h : st.runningTasks.length ≤ m ∧ PerPipeOk st ∧
      (st.runningPipelines.map Prod.fst).Nodup) :
    (trackFinishedPipelines st).runningTasks.length ≤ m ∧
    PerPipeOk (trackFinishedPipelines st) ∧
    ((trackFinishedPipelines st).runningPipelines.map Prod.fst).Nodup := by
  unfold trackFinishedPipelines
  refine foldl_preserve (fun s : SchedState => s.runningTasks.length ≤ m ∧ PerPipeOk s ∧
    (s.runningPipelines.map Prod.fst).Nodup) _ _ _ ?_ h
  intro s pc hs
  by_cases hall : ((s.graph.children pc.1).all fun c => decide (c ∈ s.processed)) = true
  · rw [if_pos hall]
    refine ⟨hs.1, ?_, delCount_keys_nodup _ _ hs.2.2⟩
    unfold PerPipeOk
    intro pc2 hpc2 k hkmax hk0
    exact hs.2.1 pc2 (delCount_subset _ _ _ hpc2) k hkmax hk0
  · rw [if_neg hall]
    exact hs

theorem schedStep_inv (m fuel : Nat) (cost : Nat → ℚ) (input : StepInput) (st : SchedState)
    (hgi : GoodInput st input)
    (h : st.runningTasks.length ≤ m ∧ PerPipeOk st ∧
      (st.runningPipelines.map Prod.fst).Nodup) :
    (schedStep m fuel cost input st).runningTasks.length ≤ m ∧
    PerPipeOk (schedStep m fuel cost input st) ∧
    ((schedStep m fuel cost input st).runningPipelines.map Prod.fst).Nodup := by
  unfold schedStep
  apply trackFinishedPipelines_inv m
  apply collectFinished_inv m fuel input.finishedTasks
  by_cases hguard : st.runningTasks.length < m
  · rw [if_pos hguard]
    rcases hdq : dequeueScan st.graph fuel st.runningPipelines st.failedPipelines
      st.nodeQueue st.processed with ⟨r1, rq, rproc⟩
    rcases r1 with _ | n
    · exact ⟨h.1, fun pc hpc k hkmax hk0 => h.2.1 pc hpc k hkmax hk0, h.2.2⟩
    · have hpo : parallelOk st.graph st.runningPipelines n = true :=
        dequeueScan_parallelOk st.graph fuel st.runningPipelines st.failedPipelines
          st.nodeQueue st.processed n rq rproc hdq
      exact dispatchNode_inv m cost input
        { st with nodeQueue := rq, processed := rproc } n hguard hpo hgi h.2.1 h.2.2
  · rw [if_neg hguard]
    exact h

theorem reaches_inv (m fuel : Nat) (cost : Nat → ℚ) (s0 s : SchedState)
    (h : Reaches m fuel cost s0 s)
    (h0 : s0.runningTasks.length ≤ m ∧ PerPipeOk s0 ∧
      (s0.runningPipelines.map Prod.fst).Nodup) :
    s.runningTasks.length ≤ m ∧ PerPipeOk s ∧
    (s.runningPipelines.map Prod.fst).Nodup := by
  induction h with
  | refl => exact h0
  | step i hre hgi ih => exact schedStep_inv m fuel cost i _ hgi ih

/-- Counterexample for C3: the per-pipeline cap does not hold for a pipeline
whose configured `max_number_of_parallel_tasks` is `0`.  `dequeue`
(`execution.py` line 135) tests `not node.parent.max_number_of_parallel_tasks`,
for which the configured `0` is as falsy as the unset `None`, so nothing is
enforced: in a run of `exG3` (pipeline 0 with limit 0 and task children 1, 2)
the scheduler reaches, after three loop iterations, a state where both task
children are in `running_task_processes` and pipeline 0's running-child
counter is 2 > 0. -/
theorem counterexample_C3_parallelism_limits :
    ∃ s : SchedState,
      Reaches 10 3 (fun _ => (0 : ℚ)) (initState exG3 [0]) s ∧
      s.graph.maxParallelTasks 0 = some 0 ∧
      s.runningTasks = [1, 2] ∧
      (∀ t ∈ s.runningTasks,
        s.graph.parent t = some 0 ∧ s.graph.kind t = NodeKind.task) ∧
      lookupCount s.runningPipelines 0 = some 2 := by
  refine ⟨schedStep 10 3 (fun _ => 0) exI3 (schedStep 10 3 (fun _ => 0) exI3
    (schedStep 10 3 (fun _ => 0) exI3 (initState exG3 [0]))), ?_, ?_, ?_, ?_, ?_⟩
  · exact Reaches.step exI3 (Reaches.step exI3 (Reaches.step exI3
      (Reaches.refl _) (by intro pc hpc; rfl)) (by intro pc hpc; rfl))
      (by intro pc hpc; rfl)
  · decide
  · decide
  · decide
  · decide

/-- C3 (amended): along every run of the scheduler loop (every state reachable
from the initial state by `schedStep` iterations, with oracle inputs under
which `launch()` creates only fresh nodes), the number of entries of
`running_task_processes` never exceeds `config.max_number_of_parallel_tasks()`
(`m`), and for every pipeline with a *truthy* configured
`max_number_of_parallel_tasks` limit `k` (that is, `k ≠ 0`) the running-child
counter stored in `running_pipelines` never exceeds `k` — at most `k` direct
children of that pipeline run concurrently.  A configured limit of `0` is
falsy for the guard at `execution.py` line 135 and enforces nothing (see the
counterexample), so the original unrestricted claim is false. -/
theorem claim_C3_parallelism_limits (m fuel : Nat) (cost : Nat → ℚ) (g : Graph)
    (q : List Nat) (s : SchedState)
    (h : Reaches m fuel cost (initState g q) s) :
    s.runningTasks.length ≤ m ∧ PerPipeOk s := by
  have hmain := reaches_inv m fuel cost (initState g q) s h
    ⟨Nat.zero_le m, fun pc hpc k hkmax hk0 => absurd hpc (List.not_mem_nil pc),
      List.nodup_nil⟩
  exact ⟨hmain.1, hmain.2.1⟩

/-- Witness for C3: the invariant instantiated at the initial state of a run
of `exG1` with global limit 2. -/
theorem witness_C3_parallelism_limits :
    (initState exG1 [0]).runningTasks.length ≤ 2 ∧ PerPipeOk (initState exG1 [0]) :=
  claim_C3_parallelism_limits 2 3 (fun _ => 0) exG1 [0] (initState exG1 [0])
    (Reaches.refl _)

theorem removeDependency_downstreams (h : Graph) (u d x : Nat) :
    (removeDependency h u d).downstreams x =
      if x = u then (h.downstreams u).erase d else h.downstreams x := by
  show Function.update h.downstreams u ((h.downstreams u).erase d) x = _
  rw [Function.update_apply]

theorem removeDependency_upstreams (h : Graph) (u d y : Nat) :
    (removeDependency h u d).upstreams y =
      if y = d then (h.upstreams d).erase u else h.upstreams y := by
  show Function.update h.upstreams d ((h.upstreams d).erase u) y = _
  rw [Function.update_apply]

theorem addDependency_initialNode (g : Graph) (s u d : Nat) :
    (addDependency g s u d).initialNode = g.initialNode := by
  unfold addDependency
  rcases g.finalNode s with _ | f <;> rcases g.initialNode s with _ | i <;>
    dsimp only <;> first
    | rfl
    | (split_ifs <;> rfl)

theorem addDependency_finalNode (g : Graph) (s u d : Nat) :
    (addDependency g s u d).finalNode = g.finalNode := by
  unfold addDependency
  rcases g.finalNode s with _ | f <;> rcases g.initialNode s with _ | i <;>
    dsimp only <;> first
    | rfl
    | (split_ifs <;> rfl)

theorem addDependency_nosent_downstreams (g : Graph) (self u d : Nat)
    (hinit : g.initialNode self = none) (hfin : g.finalNode self = none) (x : Nat) :
    (addDependency g self u d).downstreams x =
      if x = u then addMem (g.downstreams u) d else g.downstreams x := by
  unfold addDependency
  rw [hinit, hfin]
  show Function.update g.downstreams u (addMem (g.downstreams u) d) x = _
  rw [Function.update_apply]

theorem addDependency_nosent_upstreams (g : Graph) (self u d : Nat)
    (hinit : g.initialNode self = none) (hfin : g.finalNode self = none) (y : Nat) :
    (addDependency g self u d).upstreams y =
      if y = d then addMem (g.upstreams d) u else g.upstreams y := by
  unfold addDependency
  rw [hinit, hfin]
  show Function.update g.upstreams d (addMem (g.upstreams d) u) y = _
  rw [Function.update_apply]

theorem reconInner_spec (self u : Nat) : ∀ (ds : List Nat) (h : Graph),
    h.initialNode self = none → h.finalNode self = none →
    ((ds.foldl (fun a2 d => addDependency a2 self u d) h).initialNode self = none ∧
     (ds.foldl (fun a2 d => addDependency a2 self u d) h).finalNode self = none) ∧
    (∀ x y, y ∈ h.downstreams x →
      y ∈ (ds.foldl (fun a2 d => addDependency a2 self u d) h).downstreams x) ∧
    (∀ x y, x ∈ h.upstreams y →
      x ∈ (ds.foldl (fun a2 d => addDependency a2 self u d) h).upstreams y) ∧
    (∀ d ∈ ds, d ∈ (ds.foldl (fun a2 d => addDependency a2 self u d) h).downstreams u ∧
      u ∈ (ds.foldl (fun a2 d => addDependency a2 self u d) h).upstreams d) ∧
    (∀ x, x ≠ u →
      (ds.foldl (fun a2 d => addDependency a2 self u d) h).downstreams x = h.downstreams x) ∧
    (∀ y, y ∉ ds →
      (ds.foldl (fun a2 d => addDependency a2 self u d) h).upstreams y = h.upstreams y) := by
  intro ds
  induction ds with
  | nil =>
    intro h hi hf
    exact ⟨⟨hi, hf⟩, fun _ _ hy => hy, fun _ _ hx => hx, by simp,
      fun _ _ => rfl, fun _ _ => rfl⟩
  | cons d ds ih =>
    intro h hi hf
    simp only [List.foldl_cons]
    have hi' : (addDependency h self u d).initialNode self = none := by
      rw [addDependency_initialNode]; exact hi
    have hf' : (addDependency h self u d).finalNode self = none := by
      rw [addDependency_finalNode]; exact hf
    obtain ⟨hsent, hdmono, humono, hestab, hdother, huother⟩ :=
      ih (addDependency h self u d) hi' hf'
    refine ⟨hsent, ?_, ?_, ?_, ?_, ?_⟩
    · intro x y hy
      apply hdmono
      rw [addDependency_nosent_downstreams h self u d hi hf]
      by_cases hx : x = u
      · subst hx; rw [if_pos rfl]; exact addMem_subset _ _ _ hy
      · rw [if_neg hx]; exact hy
    · intro x y hx
      apply humono
      rw [addDependency_nosent_upstreams h self u d hi hf]
      by_cases hyd : y = d
      · subst hyd; rw [if_pos rfl]; exact addMem_subset _ _ _ hx
      · rw [if_neg hyd]; exact hx
    · intro d2 hd2
      rcases List.mem_cons.mp hd2 with heq | hmem
      · subst heq
        constructor
        · apply hdmono
          rw [addDependency_nosent_downstreams h self u d2 hi hf, if_pos rfl]
          exact (mem_addMem _ _ _).mpr (Or.inr rfl)
        · apply humono
          rw [addDependency_nosent_upstreams h self u d2 hi hf, if_pos rfl]
          exact (mem_addMem _ _ _).mpr (Or.inr rfl)
      · exact hestab d2 hmem
    · intro x hx
      rw [hdother x hx, addDependency_nosent_downstreams h self u d hi hf, if_neg hx]
    · intro y hy
      have hyd : y ≠ d := fun hcon => hy (hcon ▸ List.mem_cons_self d ds)
      have hyds : y ∉ ds := fun hcon => hy (List.mem_cons_of_mem d hcon)
      rw [huother y hyds, addDependency_nosent_upstreams h self u d hi hf, if_neg hyd]

theorem reconOuter_spec (self : Nat) (ds : List Nat) : ∀ (us : List Nat) (h : Graph),
    h.initialNode self = none → h.finalNode self = none →
    ((us.foldl (fun acc u => ds.foldl (fun a2 d => addDependency a2 self u d) acc)
        h).initialNode self = none ∧
     (us.foldl (fun acc u => ds.foldl (fun a2 d => addDependency a2 self u d) acc)
        h).finalNode self = none) ∧
    (∀ x y, y ∈ h.downstreams x →
      y ∈ (us.foldl (fun acc u => ds.foldl (fun a2 d => addDependency a2 self u d) acc)
        h).downstreams x) ∧
    (∀ x y, x ∈ h.upstreams y →
      x ∈ (us.foldl (fun acc u => ds.foldl (fun a2 d => addDependency a2 self u d) acc)
        h).upstreams y) ∧
    (∀ u ∈ us, ∀ d ∈ ds,
      d ∈ (us.foldl (fun acc u => ds.foldl (fun a2 d => addDependency a2 self u d) acc)
        h).downstreams u ∧
      u ∈ (us.foldl (fun acc u => ds.foldl (fun a2 d => addDependency a2 self u d) acc)
        h).upstreams d) ∧
    (∀ x, x ∉ us →
      (us.foldl (fun acc u => ds.foldl (fun a2 d => addDependency a2 self u d) acc)
        h).downstreams x = h.downstreams x) ∧
    (∀ y, y ∉ ds →
      (us.foldl (fun acc u => ds.foldl (fun a2 d => addDependency a2 self u d) acc)
        h).upstreams y = h.upstreams y) := by
  intro us
  induction us with
  | nil =>
    intro h hi hf
    exact ⟨⟨hi, hf⟩, fun _ _ hy => hy, fun _ _ hx => hx, by simp,
      fun _ _ => rfl, fun _ _ => rfl⟩
  | cons u us ih =>
    intro h hi hf
    simp only [List.foldl_cons]
    obtain ⟨⟨hii, hff⟩, hidmono, hiumono, hiestab, hidother, hiuother⟩ :=
      reconInner_spec self u ds h hi hf
    obtain ⟨hsent, hdmono, humono, hestab, hdother, huother⟩ :=
      ih (ds.foldl (fun a2 d => addDependency a2 self u d) h) hii hff
    refine ⟨hsent, ?_, ?_, ?_, ?_, ?_⟩
    · intro x y hy
      exact hdmono x y (hidmono x y hy)
    · intro x y hx
      exact humono x y (hiumono x y hx)
    · intro u2 hu2 d hd
      rcases List.mem_cons.mp hu2 with heq | hmem
      · subst heq
        exact ⟨hdmono u2 d (hiestab d hd).1, humono u2 d (hiestab d hd).2⟩
      · exact hestab u2 hmem d hd
    · intro x hx
      have hxu : x ≠ u := fun hcon => hx (hcon ▸ List.mem_cons_self u us)
      have hxus : x ∉ us := fun hcon => hx (List.mem_cons_of_mem u hcon)
      rw [hdother x hxus, hidother x hxu]
    · intro y hy
      rw [huother y hy, hiuother y hy]

theorem foldl_erase_self : ∀ (l : List Nat), l.Nodup →
    l.foldl (fun cur u => cur.erase u) l = [] := by
  intro l
  induction l with
  | nil => intro _; rfl
  | cons x xs ih =>
    intro hnd
    rw [List.foldl_cons, List.erase_cons_head]
    exact ih (List.nodup_cons.mp hnd).2

theorem detachUps_upstreams_n (n : Nat) : ∀ (l : List Nat) (h : Graph),
    (detachUps h l n).upstreams n = l.foldl (fun cur u => cur.erase u) (h.upstreams n) := by
  intro l
  induction l with
  | nil => intro h; rfl
  | cons u l ih =>
    intro h
    unfold detachUps at ih ⊢
    rw [List.foldl_cons, List.foldl_cons, ih]
    rw [removeDependency_upstreams, if_pos rfl]

theorem detachUps_upstreams_other (n : Nat) : ∀ (l : List Nat) (h : Graph) (y : Nat),
    y ≠ n → (detachUps h l n).upstreams y = h.upstreams y := by
  intro l
  induction l with
  | nil => intro h y _; rfl
  | cons u l ih =>
    intro h y hy
    unfold detachUps at ih ⊢
    rw [List.foldl_cons, ih _ y hy, removeDependency_upstreams, if_neg hy]

theorem detachUps_downstreams_keep (n : Nat) : ∀ (l : List Nat) (h : Graph) (x y : Nat),
    y ≠ n → y ∈ h.downstreams x → y ∈ (detachUps h l n).downstreams x := by
  intro l
  induction l with
  | nil => intro h x y _ hy; exact hy
  | cons u l ih =>
    intro h x y hyn hy
    unfold detachUps at ih ⊢
    rw [List.foldl_cons]
    apply ih _ x y hyn
    rw [removeDependency_downstreams]
    by_cases hx : x = u
    · rw [if_pos hx]
      rw [hx] at hy
      exact (List.mem_erase_of_ne hyn).mpr hy
    · rw [if_neg hx]; exact hy

theorem detachUps_downstreams_other (n : Nat) : ∀ (l : List Nat) (h : Graph) (x : Nat),
    x ∉ l → (detachUps h l n).downstreams x = h.downstreams x := by
  intro l
  induction l with
  | nil => intro h x _; rfl
  | cons u l ih =>
    intro h x hx
    have hxu : x ≠ u := fun hcon => hx (hcon ▸ List.mem_cons_self u l)
    have hxl : x ∉ l := fun hcon => hx (List.mem_cons_of_mem u hcon)
    unfold detachUps at ih ⊢
    rw [List.foldl_cons, ih _ x hxl, removeDependency_downstreams, if_neg hxu]

theorem detachDowns_downstreams_n (n : Nat) : ∀ (l : List Nat) (h : Graph),
    (detachDowns h n l).downstreams n =
      l.foldl (fun cur d => cur.erase d) (h.downstreams n) := by
  intro l
  induction l with
  | nil => intro h; rfl
  | cons d l ih =>
    intro h
    unfold detachDowns at ih ⊢
    rw [List.foldl_cons, List.foldl_cons, ih]
    rw [removeDependency_downstreams, if_pos rfl]

theorem detachDowns_downstreams_other (n : Nat) : ∀ (l : List Nat) (h : Graph) (x : Nat),
    x ≠ n → (detachDowns h n l).downstreams x = h.downstreams x := by
  intro l
  induction l with
  | nil => intro h x _; rfl
  | cons d l ih =>
    intro h x hx
    unfold detachDowns at ih ⊢
    rw [List.foldl_cons, ih _ x hx, removeDependency_downstreams, if_neg hx]

theorem detachDowns_upstreams_keep (n : Nat) : ∀ (l : List Nat) (h : Graph) (x y : Nat),
    x ≠ n → x ∈ h.upstreams y → x ∈ (detachDowns h n l).upstreams y := by
  intro l
  induction l with
  | nil => intro h x y _ hx; exact hx
  | cons d l ih =>
    intro h x y hxn hx
    unfold detachDowns at ih ⊢
    rw [List.foldl_cons]
    apply ih _ x y hxn
    rw [removeDependency_upstreams]
    by_cases hy : y = d
    · rw [if_pos hy]
      rw [hy] at hx
      exact (List.mem_erase_of_ne hxn).mpr hx
    · rw [if_neg hy]; exact hx

theorem detachDowns_upstreams_other (n : Nat) : ∀ (l : List Nat) (h : Graph) (y : Nat),
    y ∉ l → (detachDowns h n l).upstreams y = h.upstreams y := by
  intro l
  induction l with
  | nil => intro h y _; rfl
  | cons d l ih =>
    intro h y hy
    have hyd : y ≠ d := fun hcon => hy (hcon ▸ List.mem_cons_self d l)
    have hyl : y ∉ l := fun hcon => hy (List.mem_cons_of_mem d hcon)
    unfold detachDowns at ih ⊢
    rw [List.foldl_cons, ih _ y hyl, removeDependency_upstreams, if_neg hyd]

theorem removeNode_downstreams_stage (g : Graph) (self n : Nat) :
    (removeNode g self n).downstreams =
      (detachDowns
        (detachUps (reconnectAll g self n) ((reconnectAll g self n).upstreams n) n) n
        ((detachUps (reconnectAll g self n) ((reconnectAll g self n).upstreams n)
          n).downstreams n)).downstreams := by
  unfold removeNode
  dsimp only
  split_ifs <;> rfl

theorem removeNode_upstreams_stage (g : Graph) (self n : Nat) :
    (removeNode g self n).upstreams =
      (detachDowns
        (detachUps (reconnectAll g self n) ((reconnectAll g self n).upstreams n) n) n
        ((detachUps (reconnectAll g self n) ((reconnectAll g self n).upstreams n)
          n).downstreams n)).upstreams := by
  unfold removeNode
  dsimp only
  split_ifs <;> rfl

theorem removeNode_edge_keep (g : Graph) (self n : Nat)
    (hinit : g.initialNode self = none) (hfin : g.finalNode self = none)
    (x y : Nat) (hx : x ≠ n) (hy : y ≠ n) (hedge : y ∈ g.downstreams x) :
    y ∈ (removeNode g self n).downstreams x := by
  rw [congrFun (removeNode_downstreams_stage g self n) x]
  rw [detachDowns_downstreams_other n _ _ x hx]
  apply detachUps_downstreams_keep n _ _ x y hy
  obtain ⟨_, hdmono, _, _, _, _⟩ :=
    reconOuter_spec self (g.downstreams n) (g.upstreams n) g hinit hfin
  exact hdmono x y hedge

theorem removeNode_bypass (g : Graph) (self n : Nat)
    (hinit : g.initialNode self = none) (hfin : g.finalNode self = none)
    (hnu : n ∉ g.upstreams n) (hnd : n ∉ g.downstreams n)
    (u : Nat) (hu : u ∈ g.upstreams n) (d : Nat) (hd : d ∈ g.downstreams n) :
    d ∈ (removeNode g self n).downstreams u ∧
    u ∈ (removeNode g self n).upstreams d := by
  have hun : u ≠ n := fun hcon => hnu (hcon ▸ hu)
  have hdn : d ≠ n := fun hcon => hnd (hcon ▸ hd)
  obtain ⟨_, _, _, hestab, _, _⟩ :=
    reconOuter_spec self (g.downstreams n) (g.upstreams n) g hinit hfin
  have hbase := hestab u hu d hd
  constructor
  · rw [congrFun (removeNode_downstreams_stage g self n) u]
    rw [detachDowns_downstreams_other n _ _ u hun]
    exact detachUps_downstreams_keep n _ _ u d hdn hbase.1
  · rw [congrFun (removeNode_upstreams_stage g self n) d]
    apply detachDowns_upstreams_keep n _ _ u d hun
    rw [detachUps_upstreams_other n _ _ d hdn]
    exact hbase.2

theorem removeNode_detached (g : Graph) (self n : Nat)
    (hinit : g.initialNode self = none) (hfin : g.finalNode self = none)
    (hnu : n ∉ g.upstreams n) (hnd : n ∉ g.downstreams n)
    (hnodupU : (g.upstreams n).Nodup) (hnodupD : (g.downstreams n).Nodup) :
    (removeNode g self n).upstreams n = [] ∧
    (removeNode g self n).downstreams n = [] := by
  obtain ⟨_, _, _, _, hdother, huother⟩ :=
    reconOuter_spec self (g.downstreams n) (g.upstreams n) g hinit hfin
  have hup1 : (reconnectAll g self n).upstreams n = g.upstreams n := huother n hnd
  have hdn1 : (reconnectAll g self n).downstreams n = g.downstreams n := hdother n hnu
  have hup2 : (detachUps (reconnectAll g self n)
      ((reconnectAll g self n).upstreams n) n).upstreams n = [] := by
    rw [detachUps_upstreams_n, hup1]
    exact foldl_erase_self _ hnodupU
  have hnotmem : n ∉ (reconnectAll g self n).upstreams n := by rw [hup1]; exact hnu
  have hdn2 : (detachUps (reconnectAll g self n)
      ((reconnectAll g self n).upstreams n) n).downstreams n = g.downstreams n := by
    rw [detachUps_downstreams_other n _ _ n hnotmem, hdn1]
  constructor
  · rw [congrFun (removeNode_upstreams_stage g self n) n]
    have hnotmem2 : n ∉ (detachUps (reconnectAll g self n)
        ((reconnectAll g self n).upstreams n) n).downstreams n := by
      rw [hdn2]; exact hnd
    rw [detachDowns_upstreams_other n _ _ n hnotmem2]
    exact hup2
  · rw [congrFun (removeNode_downstreams_stage g self n) n]
    rw [detachDowns_downstreams_n, hdn2]
    exact foldl_erase_self _ hnodupD

theorem removeNode_reach (g : Graph) (self n : Nat)
    (hinit : g.initialNode self = none) (hfin : g.finalNode self = none)
    (hnu : n ∉ g.upstreams n) (hnd : n ∉ g.downstreams n)
    (hsym : ∀ a b, b ∈ g.downstreams a → a ∈ g.upstreams b)
    (b : Nat) (hb : b ≠ n) :
    ∀ a, GReach g a b →
      (a ≠ n → GReach (removeNode g self n) a b) ∧
      (a = n → ∀ x ∈ g.upstreams n, GReach (removeNode g self n) x b) := by
  intro a h
  unfold GReach at h
  induction h using Relation.ReflTransGen.head_induction_on with
  | refl => exact ⟨fun _ => Relation.ReflTransGen.refl, fun hab => absurd hab hb⟩
  | head hac hcb ih =>
    rename_i a2 c
    constructor
    · intro ha2
      by_cases hc : c = n
      · subst hc
        exact ih.2 rfl a2 (hsym a2 c hac)
      · have hedge : c ∈ (removeNode g self n).downstreams a2 :=
          removeNode_edge_keep g self n hinit hfin a2 c ha2 hc hac
        exact Relation.ReflTransGen.head hedge (ih.1 hc)
    · intro ha2n
      rw [ha2n] at hac
      intro x hx
      have hcn : c ≠ n := fun hcon => hnd (hcon ▸ hac)
      have hbyp := (removeNode_bypass g self n hinit hfin hnu hnd x hx c hac).1
      exact Relation.ReflTransGen.head hbyp (ih.1 hcn)

/-- C5 counterexample: in `exG5` (pipeline 10 with `final_node = 3`), node 2
has upstream 1 and downstreams `[3, 4]`.  During `remove(2)` the
reconnection `add_dependency(1, 4)` strips the just-added edge `(1, 3)`
because 3 is the pipeline's final node, so afterwards 3 (a downstream of the
removed node) is missing from `1.downstreams` and 1 from `3.upstreams`,
contradicting the claim that every upstream is reconnected to every
downstream. -/
theorem counterexample_C5_remove_reconnects :
    1 ∈ exG5.upstreams 2 ∧ 3 ∈ exG5.downstreams 2 ∧
    ¬ 3 ∈ (removeNode exG5 10 2).downstreams 1 ∧
    ¬ 1 ∈ (removeNode exG5 10 2).upstreams 3 ∧
    (removeNode exG5 10 2).downstreams 1 = [4] := by decide

/-- C5 (amended): for a node `n` of a pipeline that has no `initial_node` and
no `final_node` set (with `n` not self-adjacent, its edge sets
duplicate-free, and edges symmetric), `remove(n)` does reconnect every
upstream `u` of `n` to every downstream `d` of `n` (afterwards `d` is in
`u.downstreams` and `u` in `d.upstreams`), detaches `n` from all its edges,
and preserves reachability between the remaining nodes.  When a sentinel is
set, reconnection edges into or out of it can be stripped again by
`add_dependency` (see the counterexample), so the claim is restricted to
sentinel-free pipelines. -/
theorem claim_C5_remove_reconnects (g : Graph) (self n : Nat)
    (hinit : g.initialNode self = none) (hfin : g.finalNode self = none)
    (hnu : n ∉ g.upstreams n) (hnd : n ∉ g.downstreams n)
    (hnodupU : (g.upstreams n).Nodup) (hnodupD : (g.downstreams n).Nodup)
    (hsym : ∀ a b, b ∈ g.downstreams a → a ∈ g.upstreams b) :
    (∀ u ∈ g.upstreams n, ∀ d ∈ g.downstreams n,
      d ∈ (removeNode g self n).downstreams u ∧
      u ∈ (removeNode g self n).upstreams d) ∧
    (removeNode g self n).upstreams n = [] ∧
    (removeNode g self n).downstreams n = [] ∧
    (∀ a b, a ≠ n → b ≠ n → GReach g a b → GReach (removeNode g self n) a b) := by
  refine ⟨fun u hu d hd => removeNode_bypass g self n hinit hfin hnu hnd u hu d hd,
    (removeNode_detached g self n hinit hfin hnu hnd hnodupU hnodupD).1,
    (removeNode_detached g self n hinit hfin hnu hnd hnodupU hnodupD).2, ?_⟩
  intro a b han hbn hr
  exact (removeNode_reach g self n hinit hfin hnu hnd hsym b hbn a hr).1 han

/-- Witness for C5: the amended statement instantiated on the sentinel-free
pipeline `exG5b` (chain 1 → 2 → 3), removing node 2. -/
theorem witness_C5_remove_reconnects :
    (∀ u ∈ exG5b.upstreams 2, ∀ d ∈ exG5b.downstreams 2,
      d ∈ (removeNode exG5b 10 2).downstreams u ∧
      u ∈ (removeNode exG5b 10 2).upstreams d) ∧
    (removeNode exG5b 10 2).upstreams 2 = [] ∧
    (removeNode exG5b 10 2).downstreams 2 = [] ∧
    (∀ a b, a ≠ 2 → b ≠ 2 → GReach exG5b a b → GReach (removeNode exG5b 10 2) a b) :=
  claim_C5_remove_reconnects exG5b 10 2 rfl rfl (by decide) (by decide)
    (by decide) (by decide)
    (by
      intro a b h
      by_cases h1 : a = 1
      · subst h1
        have hb : b = 2 := by simpa [exG5b] using h
        subst hb; decide
      · by_cases h2 : a = 2
        · subst h2
          have hb : b = 3 := by simpa [exG5b] using h
          subst hb; decide
        · exfalso
          simp [exG5b, h1, h2] at h)

theorem prefix_append_disjoint (t r x : List Char) (ht : t ≠ [])
    (hdisj : ∀ c ∈ t, c ∉ r) (hr : r ≠ []) : ¬ t <+: r ++ x := by
  intro h
  rcases t with _ | ⟨tc, t2⟩
  · exact ht rfl
  rcases r with _ | ⟨rc, r2⟩
  · exact hr rfl
  rw [List.cons_append, List.cons_prefix_cons] at h
  apply hdisj tc (List.mem_cons_self _ _)
  rw [h.1]
  exact List.mem_cons_self rc r2

theorem infix_append_of_disjoint (m : List Char) (hm : m ≠ []) :
    ∀ (r x : List Char), (∀ c ∈ m, c ∉ r) → m <:+: r ++ x → m <:+: x := by
  intro r
  induction r with
  | nil => intro x _ h; simpa using h
  | cons a r2 ih =>
    intro x hdisj h
    rw [List.cons_append] at h
    rcases List.infix_cons_iff.mp h with hpre | hinf
    · exfalso
      rcases m with _ | ⟨mc, m2⟩
      · exact hm rfl
      · rw [List.cons_prefix_cons] at hpre
        apply hdisj mc (List.mem_cons_self _ _)
        rw [hpre.1]
        exact List.mem_cons_self a r2
    · exact ih x (fun c hc hcr => hdisj c hc (List.mem_cons_of_mem a hcr)) hinf

theorem prefix_replaceGo (p r : List Char) (hr : r ≠ []) :
    ∀ (fuel : Nat) (s t : List Char), s.length ≤ fuel → t ≠ [] →
    (∀ c ∈ t, c ∉ r) → t <+: replaceGo p r fuel s → t <+: s := by
  intro fuel
  induction fuel with
  | zero => intro s t _ _ _ h; exact h
  | succ fuel ih =>
    intro s t hlen ht hdisj h
    rw [replaceGo.eq_def] at h
    dsimp only at h
    by_cases hc : p ≠ [] ∧ p <+: s
    · rw [if_pos hc] at h
      exact absurd h (prefix_append_disjoint t r _ ht hdisj hr)
    · rw [if_neg hc] at h
      rcases s with _ | ⟨c, s2⟩
      · exact h
      · rcases t with _ | ⟨tc, t2⟩
        · exact absurd rfl ht
        rw [List.cons_prefix_cons] at h ⊢
        refine ⟨h.1, ?_⟩
        by_cases ht2 : t2 = []
        · subst ht2; exact List.nil_prefix
        · have hdisj2 : ∀ ch ∈ t2, ch ∉ r :=
            fun ch hch => hdisj ch (List.mem_cons_of_mem tc hch)
          exact ih s2 t2 (by simp at hlen; omega) ht2 hdisj2 h.2

theorem replaceGo_no_occurrence (p r : List Char) (hp : p ≠ []) (hr : r ≠ [])
    (hdisj : ∀ c ∈ p, c ∉ r) :
    ∀ (fuel : Nat) (s : List Char), s.length ≤ fuel →
    ¬ p <:+: replaceGo p r fuel s := by
  intro fuel
  induction fuel with
  | zero =>
    intro s hlen h
    have hs : s = [] := List.length_eq_zero.mp (Nat.le_zero.mp hlen)
    subst hs
    exact hp (List.infix_nil.mp h)
  | succ fuel ih =>
    intro s hlen h
    rw [replaceGo.eq_def] at h
    dsimp only at h
    by_cases hc : p ≠ [] ∧ p <+: s
    · rw [if_pos hc] at h
      have h2 := infix_append_of_disjoint p hp r _ hdisj h
      have hp1 : 0 < p.length := List.length_pos.mpr hp
      have hps : p.length ≤ s.length := hc.2.length_le
      exact ih (s.drop p.length) (by simp [List.length_drop]; omega) h2
    · rw [if_neg hc] at h
      rcases s with _ | ⟨c, s2⟩
      · exact hp (List.infix_nil.mp h)
      · rcases List.infix_cons_iff.mp h with hpre | hinf
        · rcases p with _ | ⟨pc, p2⟩
          · exact hp rfl
          rw [List.cons_prefix_cons] at hpre
          apply hc
          refine ⟨hp, ?_⟩
          rw [List.cons_prefix_cons]
          refine ⟨hpre.1, ?_⟩
          by_cases hp2 : p2 = []
          · subst hp2; exact List.nil_prefix
          · have hdisj2 : ∀ ch ∈ p2, ch ∉ r :=
              fun ch hch => hdisj ch (List.mem_cons_of_mem pc hch)
            exact prefix_replaceGo (pc :: p2) r hr fuel s2 p2
              (by simp at hlen; omega) hp2 hdisj2 hpre.2
        · exact ih s2 (by simp at hlen; omega) hinf

theorem replaceGo_no_occurrence_preserved (m r : List Char) (hm : m ≠ []) (hr : r ≠ [])
    (hdisj : ∀ c ∈ m, c ∉ r) (p : List Char) :
    ∀ (fuel : Nat) (t : List Char), t.length ≤ fuel →
    ¬ m <:+: t → ¬ m <:+: replaceGo p r fuel t := by
  intro fuel
  induction fuel with
  | zero => intro t _ hno h; exact hno h
  | succ fuel ih =>
    intro t hlen hno h
    rw [replaceGo.eq_def] at h
    dsimp only at h
    by_cases hc : p ≠ [] ∧ p <+: t
    · rw [if_pos hc] at h
      have h2 := infix_append_of_disjoint m hm r _ hdisj h
      have hp1 : 0 < p.length := List.length_pos.mpr hc.1
      have hps : p.length ≤ t.length := hc.2.length_le
      have hno2 : ¬ m <:+: t.drop p.length :=
        fun hcon => hno (hcon.trans (List.drop_suffix p.length t).isInfix)
      exact ih (t.drop p.length) (by simp [List.length_drop]; omega) hno2 h2
    · rw [if_neg hc] at h
      rcases t with _ | ⟨c, t2⟩
      · exact hm (List.infix_nil.mp h)
      · rcases List.infix_cons_iff.mp h with hpre | hinf
        · rcases m with _ | ⟨mc, m2⟩
          · exact hm rfl
          rw [List.cons_prefix_cons] at hpre
          apply hno
          apply List.IsPrefix.isInfix
          rw [List.cons_prefix_cons]
          refine ⟨hpre.1, ?_⟩
          by_cases hm2 : m2 = []
          · subst hm2; exact List.nil_prefix
          · have hdisj2 : ∀ ch ∈ m2, ch ∉ r :=
              fun ch hch => hdisj ch (List.mem_cons_of_mem mc hch)
            exact prefix_replaceGo p r hr fuel t2 m2
              (by simp at hlen; omega) hm2 hdisj2 hpre.2
        · have hno2 : ¬ m <:+: t2 :=
            fun hcon => hno (hcon.trans (List.suffix_cons c t2).isInfix)
          exact ih t2 (by simp at hlen; omega) hno2 hinf

theorem pyReplace_of_ne (p r s : List Char) (hp : p ≠ []) :
    pyReplace p r s = replaceGo p r s.length s := by
  unfold pyReplace
  rw [if_neg hp]

theorem maskMessage_preserves (mask : List Char) (hm : mask ≠ [])
    (hdisj : ∀ c ∈ mask, c ∉ stars) :
    ∀ (masks : List (List Char)), (∀ m2 ∈ masks, m2 ≠ []) →
    ∀ t, ¬ mask <:+: t → ¬ mask <:+: maskMessage masks t := by
  intro masks
  induction masks with
  | nil => intro _ t hno; exact hno
  | cons m2 ms ih =>
    intro hne t hno
    show ¬ mask <:+: maskMessage ms (pyReplace m2 stars t)
    apply ih (fun x hx => hne x (List.mem_cons_of_mem m2 hx))
    rw [pyReplace_of_ne m2 stars t (hne m2 (List.mem_cons_self _ _))]
    exact replaceGo_no_occurrence_preserved mask stars hm (by decide) hdisj m2
      t.length t (le_refl _) hno

theorem maskMessage_no_mask (mask : List Char) (hm : mask ≠ [])
    (hdisj : ∀ c ∈ mask, c ∉ stars) :
    ∀ (masks : List (List Char)), (∀ m2 ∈ masks, m2 ≠ []) → mask ∈ masks →
    ∀ s, ¬ mask <:+: maskMessage masks s := by
  intro masks
  induction masks with
  | nil => intro _ hmem; exact absurd hmem (List.not_mem_nil mask)
  | cons m2 ms ih =>
    intro hne hmem s
    show ¬ mask <:+: maskMessage ms (pyReplace m2 stars s)
    rcases List.mem_cons.mp hmem with heq | hmem2
    · subst heq
      apply maskMessage_preserves mask hm hdisj ms
        (fun x hx => hne x (List.mem_cons_of_mem mask hx))
      rw [pyReplace_of_ne mask stars s hm]
      exact replaceGo_no_occurrence mask stars hm (by decide) hdisj s.length s (le_refl _)
    · exact ih (fun x hx => hne x (List.mem_cons_of_mem m2 hx)) hmem2
        (pyReplace m2 stars s)

/-- C6 counterexample: with the configured mask `"*"` and the raw message
`"x*"`, `logger.log` emits an `Output` whose message `"x***"` still contains
the mask `"*"` — replacing a mask by `'***'` can reintroduce it, so the
claim that emitted messages contain no occurrence of any configured mask is
false as stated.  (Output events enqueued directly by `run_pipeline.run`,
cited by the claim, bypass the masking loop entirely.) -/
theorem counterexample_C6_password_masking :
    (['*'] : List Char) ∈ [['*']] ∧
    logEmittedMessage [['*']] ['x', '*'] = some ['x', '*', '*', '*'] ∧
    ['*'] <:+: ['x', '*', '*', '*'] := by decide

/-- C6 (amended): restricted to `Output` events emitted through `logger.log`
and to configurations whose masks are all nonempty, every mask that does not
contain the character `'*'` has no occurrence in the emitted message: the
sequential `str.replace` loop removes all its occurrences and the later
replacements (inserting only `'***'`) cannot recreate it.  Masks containing
`'*'` can reappear (see the counterexample), and `Output` events enqueued
directly by the scheduler are not masked. -/
theorem claim_C6_password_masking (masks : List (List Char)) (message : List Char)
    (mask : List Char) (hmem : mask ∈ masks)
    (hne : ∀ m2 ∈ masks, m2 ≠ []) (hstar : ∀ c ∈ mask, c ≠ '*')
    (out : List Char) (hout : logEmittedMessage masks message = some out) :
    ¬ mask <:+: out := by
  have hm : mask ≠ [] := hne mask hmem
  have hdisj : ∀ c ∈ mask, c ∉ stars := by
    intro c hc hcs
    apply hstar c hc
    simpa [stars] using hcs
  have hout2 : out = maskMessage masks (pyRstrip message) := by
    unfold logEmittedMessage at hout
    by_cases hemp : maskMessage masks (pyRstrip message) = []
    · rw [if_pos hemp] at hout
      exact absurd hout (by simp)
    · rw [if_neg hemp] at hout
      exact (Option.some.inj hout).symm
  rw [hout2]
  exact maskMessage_no_mask mask hm hdisj masks hne hmem (pyRstrip message)

/-- Witness for C6: the mask `"pw"` never occurs in the message emitted for
the raw input `"a pw b"` (which is `"a *** b"`). -/
theorem witness_C6_password_masking :
    ¬ (['p', 'w'] : List Char) <:+: ['a', ' ', '*', '*', '*', ' ', 'b'] :=
  claim_C6_password_masking [['p', 'w']] ['a', ' ', 'p', 'w', ' ', 'b', ' ']
    ['p', 'w'] (by decide) (by decide) (by decide)
    ['a', ' ', '*', '*', '*', ' ', 'b'] (by decide)

/-- C7: with a non-`None` run id, `close_open_run_after_error` maps both
tables through the two UPDATEs; every open row (matching `run_id`,
`end_time IS NULL`) gets `end_time = now` and `succeeded = false`, afterwards
every row with that `run_id` has a non-NULL `end_time`, and every row whose
`end_time` was already set is returned entirely unchanged. -/
theorem claim_C7_close_open_run (r now : Nat) (runs : List RunRow)
    (nodeRuns : List NodeRunRow) :
    (close_open_run_after_error (some r) now runs nodeRuns =
      (runs.map (closeRunRow r now), nodeRuns.map (closeNodeRunRow r now))) ∧
    (∀ row : RunRow, row.run_id = r → row.end_time = none →
      closeRunRow r now row =
        { row with end_time := some now, succeeded := some false }) ∧
    (∀ row : NodeRunRow, row.run_id = r → row.end_time = none →
      closeNodeRunRow r now row =
        { row with end_time := some now, succeeded := some false }) ∧
    (∀ row ∈ (close_open_run_after_error (some r) now runs nodeRuns).1,
      row.run_id = r → row.end_time ≠ none) ∧
    (∀ row ∈ (close_open_run_after_error (some r) now runs nodeRuns).2,
      row.run_id = r → row.end_time ≠ none) ∧
    (∀ row : RunRow, row.end_time ≠ none → closeRunRow r now row = row) ∧
    (∀ row : NodeRunRow, row.end_time ≠ none → closeNodeRunRow r now row = row) ∧
    (close_open_run_after_error none now runs nodeRuns = (runs, nodeRuns)) := by
  refine ⟨rfl, ?_, ?_, ?_, ?_, ?_, ?_, rfl⟩
  · intro row hid hend
    unfold closeRunRow
    rw [if_pos ⟨hid, hend⟩]
  · intro row hid hend
    unfold closeNodeRunRow
    rw [if_pos ⟨hid, hend⟩]
  · intro row hmem hid
    rcases List.mem_map.mp hmem with ⟨row0, _, hrow⟩
    subst hrow
    unfold closeRunRow
    by_cases h : row0.run_id = r ∧ row0.end_time = none
    · rw [if_pos h]
      simp
    · rw [if_neg h]
      unfold closeRunRow at hid
      rw [if_neg h] at hid
      intro hnone
      exact h ⟨hid, hnone⟩
  · intro row hmem hid
    rcases List.mem_map.mp hmem with ⟨row0, _, hrow⟩
    subst hrow
    unfold closeNodeRunRow
    by_cases h : row0.run_id = r ∧ row0.end_time = none
    · rw [if_pos h]
      simp
    · rw [if_neg h]
      unfold closeNodeRunRow at hid
      rw [if_neg h] at hid
      intro hnone
      exact h ⟨hid, hnone⟩
  · intro row hend
    unfold closeRunRow
    rw [if_neg (fun h => hend h.2)]
  · intro row hend
    unfold closeNodeRunRow
    rw [if_neg (fun h => hend h.2)]

/-- Witness for C7: an open row of run 7 is closed with `end_time = 99`,
`succeeded = false`; an already-closed row keeps its values. -/
theorem witness_C7_close_open_run :
    closeRunRow 7 99 ⟨7, [], 0, 0, none, none⟩ =
      (⟨7, [], 0, 0, some 99, some false⟩ : RunRow) ∧
    closeRunRow 7 99 ⟨7, [], 0, 1, some 5, some true⟩ =
      (⟨7, [], 0, 1, some 5, some true⟩ : RunRow) :=
  ⟨(claim_C7_close_open_run 7 99 [] []).2.1 ⟨7, [], 0, 0, none, none⟩ rfl rfl,
   (claim_C7_close_open_run 7 99 [] []).2.2.2.2.2.1
     ⟨7, [], 0, 1, some 5, some true⟩ (by decide)⟩

theorem foldl_max_init_le : ∀ (l : List ℚ) (a : ℚ), a ≤ l.foldl max a := by
  intro l
  induction l with
  | nil => intro a; exact le_refl a
  | cons b bs ih =>
    intro a
    rw [List.foldl_cons]
    exact le_trans (le_max_left a b) (ih (max a b))

theorem le_foldl_max : ∀ (l : List ℚ) (a x : ℚ), x = a ∨ x ∈ l → x ≤ l.foldl max a := by
  intro l
  induction l with
  | nil =>
    intro a x h
    rcases h with heq | hf
    · subst heq; exact le_refl _
    · cases hf
  | cons b bs ih =>
    intro a x h
    rw [List.foldl_cons]
    rcases h with heq | hm
    · subst heq
      exact le_trans (le_max_left _ _) (foldl_max_init_le bs _)
    · rcases List.mem_cons.mp hm with heq | hbs
      · subst heq
        exact le_trans (le_max_right _ _) (foldl_max_init_le bs _)
      · exact ih (max a b) x (Or.inr hbs)

theorem le_pyMax (l : List ℚ) (x : ℚ) (hx : x ∈ l) : x ≤ pyMax l := by
  cases l with
  | nil => cases hx
  | cons a as =>
    show x ≤ as.foldl max a
    exact le_foldl_max as a x (List.mem_cons.mp hx)

theorem pyMax_nonneg (l : List ℚ) (h : ∀ x ∈ l, 0 ≤ x) : 0 ≤ pyMax l := by
  cases l with
  | nil => exact le_refl 0
  | cons a as =>
    exact le_trans (h a (List.mem_cons_self a as))
      (le_pyMax (a :: as) a (List.mem_cons_self a as))

theorem compute_cost_nonneg (g : CostGraph)
    (hpos : ∀ k, 0 ≤ runTimeOr0 g.runTime k) : ∀ n, 0 ≤ compute_cost g n := by
  suffices aux : ∀ L n, g.size - n ≤ L → 0 ≤ compute_cost g n by
    intro n
    exact aux (g.size - n) n (le_refl _)
  intro L
  induction L with
  | zero =>
    intro n hn
    rw [compute_cost]
    have h1 : 0 ≤ pyMax ((g.downstreams n).attach.map fun d => compute_cost g d.1) := by
      apply pyMax_nonneg
      intro x hx
      rcases List.mem_map.mp hx with ⟨d, _, hfx⟩
      have hw := g.wf n d.1 d.2
      exact absurd hn (by omega)
    have h2 := hpos n
    linarith
  | succ L ihL =>
    intro n hn
    rw [compute_cost]
    have h1 : 0 ≤ pyMax ((g.downstreams n).attach.map fun d => compute_cost g d.1) := by
      apply pyMax_nonneg
      intro x hx
      rcases List.mem_map.mp hx with ⟨d, _, hfx⟩
      subst hfx
      have hw := g.wf n d.1 d.2
      exact ihL d.1 (by omega)
    have h2 := hpos n
    linarith

/-- C8: with every recorded run time nonnegative, `compute_cost` satisfies
the equation `cost(n) = run_time(n) + max(cost(d) for d in downstreams,
default 0)` (missing history counts as 0 through `runTimeOr0`), hence
`cost(n) ≥ run_time(n)` and `cost(n) ≥ cost(d)` for every downstream `d`. -/
theorem claim_C8_compute_cost (g : CostGraph) (n : Nat)
    (hpos : ∀ k, 0 ≤ runTimeOr0 g.runTime k) :
    compute_cost g n =
      runTimeOr0 g.runTime n + pyMax ((g.downstreams n).map (compute_cost g)) ∧
    runTimeOr0 g.runTime n ≤ compute_cost g n ∧
    ∀ d ∈ g.downstreams n, compute_cost g d ≤ compute_cost g n := by
  have hmap : ((g.downstreams n).attach.map fun d => compute_cost g d.1) =
      (g.downstreams n).map (compute_cost g) := by
    rw [List.attach_map_val]
  have hmax0 : 0 ≤ pyMax ((g.downstreams n).attach.map fun d => compute_cost g d.1) := by
    apply pyMax_nonneg
    intro x hx
    rcases List.mem_map.mp hx with ⟨d, _, hfx⟩
    subst hfx
    exact compute_cost_nonneg g hpos d.1
  refine ⟨?_, ?_, ?_⟩
  · rw [compute_cost, hmap, add_comm]
  · rw [compute_cost]
    linarith
  · intro d hd
    conv_rhs => rw [compute_cost]
    have hin : compute_cost g d ∈
        ((g.downstreams n).attach.map fun x => compute_cost g x.1) :=
      List.mem_map.mpr ⟨⟨d, hd⟩, List.mem_attach _ _, rfl⟩
    have h1 := le_pyMax _ _ hin
    have h2 := hpos n
    linarith

/-- Witness for C8: in the two-node chain `exG8` (run time 3 everywhere),
node 1 is a downstream of node 0 and its cost bounds node 0's cost from
below. -/
theorem witness_C8_compute_cost :
    (1 : Nat) ∈ exG8.downstreams 0 ∧ compute_cost exG8 1 ≤ compute_cost exG8 0 :=
  ⟨by decide,
   (claim_C8_compute_cost exG8 0 (fun k => by norm_num [runTimeOr0, exG8])).2.2
     1 (by decide)⟩

theorem lookup_cons_eq (k : String) (v : Int) (l : List (String × Int)) :
    ((k, v) :: l).lookup k = some v := by
  simp [List.lookup]

theorem lookup_cons_ne (k : String) (v : Int) (l : List (String × Int))
    (f : String) (h : f ≠ k) : ((k, v) :: l).lookup f = l.lookup f := by
  have hb : (f == k) = false := beq_eq_false_iff_ne.mpr h
  simp [List.lookup, hb]

theorem already_nil (p : List String) : already_processed_files [] p = [] := rfl

theorem already_cons (r : ProcessedFileRow) (rest : List ProcessedFileRow)
    (p : List String) :
    already_processed_files (r :: rest) p =
      if r.node_path = p then
        (r.file_name, r.last_modified_timestamp) :: already_processed_files rest p
      else already_processed_files rest p := by
  unfold already_processed_files
  rw [List.filter_cons]
  by_cases hp : r.node_path = p
  · rw [if_pos (decide_eq_true hp), List.map_cons, if_pos hp]
  · rw [if_neg (by simp [hp]), if_neg hp]

theorem already_append (t1 t2 : List ProcessedFileRow) (p : List String) :
    already_processed_files (t1 ++ t2) p =
      already_processed_files t1 p ++ already_processed_files t2 p := by
  unfold already_processed_files
  rw [List.filter_append, List.map_append]

theorem upsertRow_node_path (p : List String) (f : String) (t : Int)
    (row : ProcessedFileRow) : (upsertRow p f t row).node_path = row.node_path := by
  unfold upsertRow
  split_ifs <;> rfl

theorem upsertRow_file_name (p : List String) (f : String) (t : Int)
    (row : ProcessedFileRow) : (upsertRow p f t row).file_name = row.file_name := by
  unfold upsertRow
  split_ifs <;> rfl

theorem upsertRow_no_match (p : List String) (f : String) (t : Int)
    (row : ProcessedFileRow) (h : ¬(row.node_path = p ∧ row.file_name = f)) :
    upsertRow p f t row = row := by
  unfold upsertRow
  rw [if_neg h]

theorem already_lookup_none (p : List String) (f : String) :
    ∀ tbl : List ProcessedFileRow,
      (∀ row ∈ tbl, ¬(row.node_path = p ∧ row.file_name = f)) →
      (already_processed_files tbl p).lookup f = none := by
  intro tbl
  induction tbl with
  | nil => intro _; rfl
  | cons r rest ih =>
    intro h
    rw [already_cons]
    by_cases hp : r.node_path = p
    · rw [if_pos hp]
      have hf : f ≠ r.file_name :=
        fun hh => h r (List.mem_cons_self r rest) ⟨hp, hh.symm⟩
      rw [lookup_cons_ne _ _ _ _ hf]
      exact ih (fun row hrow => h row (List.mem_cons_of_mem r hrow))
    · rw [if_neg hp]
      exact ih (fun row hrow => h row (List.mem_cons_of_mem r hrow))

theorem lookup_track_update (p : List String) (f : String) (t : Int) :
    ∀ tbl : List ProcessedFileRow,
      tbl.any (fun row => decide (row.node_path = p ∧ row.file_name = f)) = true →
      (already_processed_files (tbl.map (upsertRow p f t)) p).lookup f = some t := by
  intro tbl
  induction tbl with
  | nil => intro h; cases h
  | cons r rest ih =>
    intro h
    rw [List.map_cons, already_cons, upsertRow_node_path, upsertRow_file_name]
    by_cases hkey : r.node_path = p ∧ r.file_name = f
    · rw [if_pos hkey.1, hkey.2]
      have hts : (upsertRow p f t r).last_modified_timestamp = t := by
        unfold upsertRow
        rw [if_pos hkey]
      rw [hts]
      exact lookup_cons_eq f t _
    · have hany : rest.any (fun row =>
          decide (row.node_path = p ∧ row.file_name = f)) = true := by
        rw [List.any_cons] at h
        rcases (Bool.or_eq_true _ _).mp h with hl | hr
        · exact absurd (of_decide_eq_true hl) hkey
        · exact hr
      have hr2 : upsertRow p f t r = r := upsertRow_no_match p f t r hkey
      rw [hr2]
      by_cases hp : r.node_path = p
      · rw [if_pos hp]
        have hf : f ≠ r.file_name := fun hh => hkey ⟨hp, hh.symm⟩
        rw [lookup_cons_ne _ _ _ _ hf]
        exact ih hany
      · rw [if_neg hp]
        exact ih hany

theorem lookup_track_map_other (p : List String) (f : String) (t : Int)
    (p2 : List String) (f2 : String) (hne : p2 ≠ p ∨ f2 ≠ f) :
    ∀ tbl : List ProcessedFileRow,
      (already_processed_files (tbl.map (upsertRow p f t)) p2).lookup f2 =
      (already_processed_files tbl p2).lookup f2 := by
  intro tbl
  induction tbl with
  | nil => rfl
  | cons r rest ih =>
    rw [List.map_cons, already_cons, already_cons, upsertRow_node_path,
      upsertRow_file_name]
    by_cases hp : r.node_path = p2
    · rw [if_pos hp, if_pos hp]
      by_cases hf : r.file_name = f2
      · have hnokey : ¬(r.node_path = p ∧ r.file_name = f) := by
          rcases hne with hne | hne
          · intro hk; exact hne (hp.symm.trans hk.1)
          · intro hk; exact hne (hf.symm.trans hk.2)
        rw [upsertRow_no_match p f t r hnokey, hf, lookup_cons_eq, lookup_cons_eq]
      · rw [lookup_cons_ne _ _ _ _ (fun hh => hf hh.symm),
          lookup_cons_ne _ _ _ _ (fun hh => hf hh.symm)]
        exact ih
    · rw [if_neg hp, if_neg hp]
      exact ih

theorem lookup_append_of_none (l1 l2 : List (String × Int)) (f : String)
    (h : l1.lookup f = none) : (l1 ++ l2).lookup f = l2.lookup f := by
  induction l1 with
  | nil => rfl
  | cons e es ih =>
    rcases e with ⟨k, v⟩
    by_cases hk : f = k
    · subst hk
      rw [lookup_cons_eq] at h
      cases h
    · rw [List.cons_append, lookup_cons_ne _ _ _ _ hk]
      rw [lookup_cons_ne _ _ _ _ hk] at h
      exact ih h

theorem lookup_append_single_ne (l : List (String × Int)) (f f2 : String)
    (t : Int) (h : f2 ≠ f) : (l ++ [(f, t)]).lookup f2 = l.lookup f2 := by
  induction l with
  | nil =>
    rw [List.nil_append, lookup_cons_ne _ _ _ _ h]
  | cons e es ih =>
    rcases e with ⟨k, v⟩
    rw [List.cons_append]
    by_cases hk : f2 = k
    · subst hk
      rw [lookup_cons_eq, lookup_cons_eq]
    · rw [lookup_cons_ne _ _ _ _ hk, lookup_cons_ne _ _ _ _ hk, ih]

theorem uniqueKeys_track (tbl : List ProcessedFileRow) (p : List String)
    (f : String) (t : Int) (h : UniqueKeys tbl) :
    UniqueKeys (track_processed_file tbl p f t) := by
  unfold UniqueKeys at h
  unfold track_processed_file UniqueKeys
  by_cases hany : tbl.any
      (fun row => decide (row.node_path = p ∧ row.file_name = f)) = true
  · rw [if_pos hany]
    refine List.Pairwise.map _ ?_ h
    intro a b hab
    rcases hab with hab | hab
    · exact Or.inl (by rw [upsertRow_node_path, upsertRow_node_path]; exact hab)
    · exact Or.inr (by rw [upsertRow_file_name, upsertRow_file_name]; exact hab)
  · rw [if_neg hany]
    rw [List.pairwise_append]
    refine ⟨h, List.Pairwise.cons (fun b hb => absurd hb (List.not_mem_nil b))
      List.Pairwise.nil, ?_⟩
    intro a ha b hb
    rw [List.mem_singleton] at hb
    subst hb
    by_contra hcon
    push_neg at hcon
    exact hany (List.any_eq_true.mpr ⟨a, ha, decide_eq_true ⟨hcon.1, hcon.2⟩⟩)

/-- C9: under the table's `(node_path, file_name)` primary key, after
`track_processed_file p f t` the mapping `already_processed_files p` sends
`f` to `t` (updating an existing row, inserting a missing one), every other
`(node_path, file_name)` key reads exactly as before, and the key constraint
is preserved. -/
theorem claim_C9_processed_files (tbl : List ProcessedFileRow) (p : List String)
    (f : String) (t : Int) (hu : UniqueKeys tbl) :
    ((already_processed_files (track_processed_file tbl p f t) p).lookup f
      = some t) ∧
    (∀ (p2 : List String) (f2 : String), p2 ≠ p ∨ f2 ≠ f →
      (already_processed_files (track_processed_file tbl p f t) p2).lookup f2 =
        (already_processed_files tbl p2).lookup f2) ∧
    UniqueKeys (track_processed_file tbl p f t) := by
  refine ⟨?_, ?_, uniqueKeys_track tbl p f t hu⟩
  · unfold track_processed_file
    by_cases hany : tbl.any
        (fun row => decide (row.node_path = p ∧ row.file_name = f)) = true
    · rw [if_pos hany]
      exact lookup_track_update p f t tbl hany
    · rw [if_neg hany]
      have hnone : (already_processed_files tbl p).lookup f = none := by
        apply already_lookup_none
        intro row hrow hk
        exact hany (List.any_eq_true.mpr ⟨row, hrow, decide_eq_true hk⟩)
      rw [already_append, lookup_append_of_none _ _ _ hnone, already_cons,
        if_pos rfl]
      exact lookup_cons_eq _ _ _
  · intro p2 f2 hne
    unfold track_processed_file
    by_cases hany : tbl.any
        (fun row => decide (row.node_path = p ∧ row.file_name = f)) = true
    · rw [if_pos hany]
      exact lookup_track_map_other p f t p2 f2 hne tbl
    · rw [if_neg hany]
      rw [already_append]
      by_cases hp2 : p2 = p
      · subst hp2
        have hf2 : f2 ≠ f := by
          rcases hne with hh | hh
          · exact absurd rfl hh
          · exact hh
        rw [already_cons, if_pos rfl, already_nil]
        exact lookup_append_single_ne _ _ _ _ hf2
      · rw [already_cons, if_neg (fun hh => hp2 hh.symm), already_nil,
          List.append_nil]

/-- Witness for C9: upserting `(["a"], "x", 5)` into a one-row table holding
`(["a"], "x", 1)` makes the lookup of `"x"` under path `["a"]` return `5`. -/
theorem witness_C9_processed_files :
    UniqueKeys [(⟨["a"], "x", 1⟩ : ProcessedFileRow)] ∧
    (already_processed_files
        (track_processed_file [⟨["a"], "x", 1⟩] ["a"] "x" 5) ["a"]).lookup "x"
      = some 5 := by
  have hu : UniqueKeys [(⟨["a"], "x", 1⟩ : ProcessedFileRow)] :=
    List.Pairwise.cons (fun b hb => absurd hb (List.not_mem_nil b))
      List.Pairwise.nil
  exact ⟨hu, (claim_C9_processed_files [⟨["a"], "x", 1⟩] ["a"] "x" 5 hu).1⟩

end MaraPipelines
